import Mathlib

/-!
Shallow embedding of the indexing / hybrid-search core of the
`canvas-agent` repository (files `agentv1/index_txt_records.py` and
`agentv1/rag_utils.py`), together with theorems settling the claims
about it.

Modelling conventions:
* Python strings are Lean `String`s; slicing is `List.drop`/`List.take`
  on `String.data`.
* Floating point scores are modelled as rationals `ℚ` (all score
  arithmetic in the source is plain +, -, *, /, min, max, comparison).
* The external libraries (`hashlib.sha256`, `rank_bm25.BM25Okapi`,
  Chroma, the Gemini embedding provider, the filesystem) are inputs of
  the model: a hash function `String → String`, per-namespace raw BM25
  score lists, per-namespace vector-query hit lists, and a
  `String → Option String` filesystem.
* A raised-and-unhandled Python exception is `Except.error`; the state
  threaded through `index_course` is only mutated after all reads, as
  in the source, so an error leaves the stores unchanged.
-/

namespace AgentV1

/-- `TxtRecord` dataclass of `index_txt_records.py`. -/
structure TxtRecord where
  file_name : String
  date : String
  course : String
  module : String
  file_path : String
deriving DecidableEq, Repr

/-- The metadata dictionary attached to every chunk (`base_meta` plus the
`__header_len` entry and the later-assigned `chunk_id`).  In the source the
`chunk_id` key is inserted by the id-assignment loop before any store write;
here the field is carried from the start (value `0`) and overwritten by
`assign_ids`. -/
structure ChunkMeta where
  course : String
  module : String
  file_name : String
  date : String
  file_path : String
  source_key : String
  header_len : Nat
  chunk_id : Nat
deriving DecidableEq, Repr

/-- A langchain `Document`: page content plus metadata. -/
structure Document where
  page_content : String
  metadata : ChunkMeta
deriving DecidableEq, Repr

/-- `build_header` of `index_txt_records.py`. -/
def build_header (r : TxtRecord) : String :=
  "# " ++ r.file_name ++ "\n" ++
  "Date: " ++ r.date ++ "\n" ++
  "Course: " ++ r.course ++ "\n" ++
  "Module: " ++ r.module ++ "\n" ++
  "Path: " ++ r.file_path ++ "\n\n"

/-- The source-key format of `index_course`:
`f"\x7br.file_path\x7d|\x7br.date\x7d|\x7bcontent_hash(raw_text)\x7d"`.
`hash` is the model of `content_hash` (sha256 hex digest of the text). -/
def sourceKey (hash : String → String) (r : TxtRecord) (raw_text : String) : String :=
  r.file_path ++ "|" ++ r.date ++ "|" ++ hash raw_text

/-- Fuel-indexed loop body of `chunk_text_fixed` (structural recursion so
that concrete runs reduce in the kernel); `chunkFrom` below supplies enough
fuel for the loop to only ever exit through its own conditions. -/
def chunkFromAux (l : List Char) (size step : Nat) : Nat → Nat → List (List Char)
  | _, 0 => []
  | i, fuel + 1 =>
    if i < l.length then
      if l.length ≤ i + size then [(l.drop i).take size]
      else (l.drop i).take size :: chunkFromAux l size step (i + step) fuel
    else []

/-- Loop of `chunk_text_fixed`: starting at offset `i`, repeatedly take the
window `text[i : min (i+size) n]`, stop as soon as a window reaches the end
of the text, else advance by `step`.  Mirrors the `while i < n` loop
(`end = min(i + size, n)`; `if end == n: break`; `i += step`); since
`0 < step`, the fuel `l.length - i + 1` is never exhausted. -/
def chunkFrom (l : List Char) (size step : Nat) (_hstep : 0 < step) (i : Nat) :
    List (List Char) :=
  chunkFromAux l size step i (l.length - i + 1)

/-- `chunk_text_fixed` of `index_txt_records.py`.  The Python
`assert 0 <= overlap < size` is modelled as the hypothesis `h`. -/
def chunk_text_fixed (text : String) (size overlap : Nat) (h : overlap < size) :
    List String :=
  (chunkFrom text.data size (size - overlap) (by omega) 0).map String.mk

/-- `CHUNK_SIZE` config constant. -/
def CHUNK_SIZE : Nat := 1000

/-- `CHUNK_OVERLAP` config constant. -/
def CHUNK_OVERLAP : Nat := 200

/-- Python `str.lower()` (ASCII range; the claims only exercise ASCII
inputs). -/
def pyLower (s : String) : String :=
  String.mk (s.data.map Char.toLower)

/-- Characters matched by the `[a-z0-9]` class of `slug`'s regex. -/
def isSlugChar (c : Char) : Bool :=
  ('a' ≤ c && c ≤ 'z') || ('0' ≤ c && c ≤ '9')

/-- One pass of `re.sub(r"[^a-z0-9]+", "_", s)`: every maximal run of
non-matching characters becomes a single underscore.  The flag records
whether the scan is inside such a run (whose underscore is already
emitted). -/
def collapseAux : Bool → List Char → List Char
  | _, [] => []
  | inRun, c :: rest =>
    if isSlugChar c then c :: collapseAux false rest
    else if inRun then collapseAux true rest
    else '_' :: collapseAux true rest

/-- `re.sub(r"[^a-z0-9]+", "_", s)` over a character list. -/
def collapseRuns (l : List Char) : List Char :=
  collapseAux false l

/-- Python `str.strip("_")`: drop leading and trailing underscores. -/
def stripUnderscores (l : List Char) : List Char :=
  ((l.dropWhile (· == '_')).reverse.dropWhile (· == '_')).reverse

/-- `slug` of `rag_utils.py` / `index_txt_records.py`:
`re.sub(r"[^a-z0-9]+", "_", s.lower()).strip("_")`. -/
def slug (s : String) : String :=
  String.mk (stripUnderscores (collapseRuns (pyLower s).data))

/-- Characters matched by the `\w` class of `TOKEN_PATTERN` (ASCII range;
the claims only exercise ASCII inputs). -/
def isWordChar (c : Char) : Bool :=
  c.isAlphanum || c == '_'

/-- Scanner for `TOKEN_PATTERN.findall`: `acc` holds the reversed
characters of the `\w` run currently being read. -/
def tokenAux : List Char → List Char → List String
  | acc, [] => if acc = [] then [] else [String.mk acc.reverse]
  | acc, c :: rest =>
    if isWordChar c then tokenAux (c :: acc) rest
    else if acc = [] then tokenAux [] rest
    else String.mk acc.reverse :: tokenAux [] rest

/-- Maximal runs of `\w` characters, i.e. `TOKEN_PATTERN.findall`. -/
def findTokens (l : List Char) : List String :=
  tokenAux [] l

/-- `TOKEN_PATTERN.findall(text.lower())`, the tokenizer used for BM25. -/
def tokenize (text : String) : List String :=
  findTokens (pyLower text).data

/-- The per-namespace Chroma collection: the ordered list of documents added
to it.  `some` models an existing non-empty persist directory
(`Path(collection_path).exists() and any(...iterdir())`), `none` a missing
one. -/
structure VectorStore where
  docs : List Document
deriving DecidableEq, Repr

/-- The per-namespace BM25 pickle payload: the `tokens`, `chunks` and
`metas` parallel arrays (the pickled `BM25Okapi` object itself is a pure
function of `tokens` and is supplied externally at query time). -/
structure BM25Store where
  tokens : List (List String)
  chunks : List String
  metas : List ChunkMeta
deriving DecidableEq, Repr

/-- The persisted state of one namespace (one course): its Chroma
collection and its BM25 pickle, each possibly absent. -/
structure NamespaceState where
  vector : Option VectorStore
  bm25 : Option BM25Store
deriving DecidableEq, Repr

/-- A namespace before any indexing: neither store exists. -/
def emptyNamespace : NamespaceState := ⟨none, none⟩

/-- Errors a run of `index_course` can raise. -/
inductive IndexError where
  | fileNotFound (path : String)
deriving DecidableEq, Repr

/-- `read_text`: returns the file contents, raising `FileNotFoundError`
when the filesystem has no entry for the path.  The filesystem is the
model parameter `fs`; `BASE_DIR`-relative resolution and the
`errors="ignore"` decoding are absorbed into `fs`. -/
def read_text (fs : String → Option String) (path : String) :
    Except IndexError String :=
  match fs path with
  | some text => .ok text
  | none => .error (.fileNotFound path)

/-- `collection_count_safe`: both the `_collection.count()` branch and the
`len(get()["ids"])` fallback return the number of documents stored. -/
def collection_count_safe (vs : VectorStore) : Nat :=
  vs.docs.length

/-- The `existing_keys` set loaded at the start of `index_course`: the
`source_key` metadata values of the namespace's Chroma collection, or the
empty set when the collection is absent.  (Membership below is list
membership; the list plays the role of the Python set.) -/
def existing_keys (s : NamespaceState) : List String :=
  match s.vector with
  | some vs => vs.docs.map (fun d => d.metadata.source_key)
  | none => []

/-- The chunk documents one non-skipped record contributes: the body is
chunked with `chunk_text_fixed`, the header is prepended to every chunk,
and each chunk carries `base_meta` plus `__header_len` (the not-yet-assigned
`chunk_id` is 0 until `assign_ids` overwrites it). -/
def record_chunks (hash : String → String) (r : TxtRecord) (raw_text : String) :
    List Document :=
  let source_key := sourceKey hash r raw_text
  let header := build_header r
  let body_chunks := chunk_text_fixed raw_text CHUNK_SIZE CHUNK_OVERLAP (by decide)
  body_chunks.map (fun body_part =>
    { page_content := header ++ body_part
      metadata :=
        { course := r.course
          module := r.module
          file_name := r.file_name
          date := r.date
          file_path := r.file_path
          source_key := source_key
          header_len := header.length
          chunk_id := 0 } })

/-- The chunk-construction loop of `index_course` (`for r in records:`):
read each record's file (an unreadable file raises, aborting the whole
call), skip the record when its source key is already present, otherwise
emit its `record_chunks`, records in order, chunks in order. -/
def buildNewChunks (fs : String → Option String) (hash : String → String)
    (keys : List String) : List TxtRecord → Except IndexError (List Document)
  | [] => .ok []
  | r :: rest => do
    let raw_text ← read_text fs r.file_path
    let tail ← buildNewChunks fs hash keys rest
    if sourceKey hash r raw_text ∈ keys then
      pure tail
    else
      pure (record_chunks hash r raw_text ++ tail)

/-- `for i, c in enumerate(new_chunks, start=start_id): c.metadata["chunk_id"] = i`. -/
def assign_ids (start : Nat) : List Document → List Document
  | [] => []
  | c :: cs =>
    { c with metadata := { c.metadata with chunk_id := start } } :: assign_ids (start + 1) cs

/-- The starting chunk id of a run:
`collection_count_safe(vector_store) if vector_store else 0`. -/
def start_chunk_id (s : NamespaceState) : Nat :=
  match s.vector with
  | some vs => collection_count_safe vs
  | none => 0

/-- The store-mutation tail of `index_course` (everything after the
`if not new_chunks: return` early exit): assign chunk ids starting at the
vector store's count (0 when the store is absent), append the documents to
the Chroma collection (creating it if needed), and extend the BM25
pickle's parallel arrays, rebuilding the model over the full token
corpus. -/
def appendState (s : NamespaceState) (new_chunks : List Document) :
    NamespaceState :=
  let start_id := start_chunk_id s
  let withIds := assign_ids start_id new_chunks
  let vector' : VectorStore :=
    match s.vector with
    | some vs => ⟨vs.docs ++ withIds⟩
    | none => ⟨withIds⟩
  let toks_new := withIds.map (fun c => tokenize c.page_content)
  let (old_tokens, old_chunks, old_metas) :=
    match s.bm25 with
    | some p => (p.tokens, p.chunks, p.metas)
    | none => ([], [], [])
  let all_tokens := old_tokens ++ toks_new
  let all_chunks := old_chunks ++ withIds.map (fun c => c.page_content)
  let all_metas := old_metas ++ withIds.map (fun c => c.metadata)
  ⟨some vector', some ⟨all_tokens, all_chunks, all_metas⟩⟩

/-- `index_course` of `index_txt_records.py` (with `STORE_TEXT_IN_CHROMA =
True`, as configured): load the existing keys from the vector store, build
the deduplicated chunk list, return the state unchanged when it is empty,
otherwise mutate both stores via `appendState`. -/
def index_course (fs : String → Option String) (hash : String → String)
    (s : NamespaceState) (records : List TxtRecord) :
    Except IndexError NamespaceState := do
  if records = [] then
    return s
  let keys := existing_keys s
  let new_chunks ← buildNewChunks fs hash keys records
  if new_chunks = [] then
    return s
  return appendState s new_chunks

/-- The vector store's document list (empty when the store is absent). -/
def vecDocs (s : NamespaceState) : List Document :=
  match s.vector with
  | some vs => vs.docs
  | none => []

/-- The lexical store's chunk-text array (empty when the pickle is absent). -/
def lexChunks (s : NamespaceState) : List String :=
  match s.bm25 with
  | some b => b.chunks
  | none => []

/-- The lexical store's metadata array (empty when the pickle is absent). -/
def lexMetas (s : NamespaceState) : List ChunkMeta :=
  match s.bm25 with
  | some b => b.metas
  | none => []

instance {ε α : Type} [DecidableEq ε] [DecidableEq α] : DecidableEq (Except ε α)
  | .error e, .error e' =>
    if h : e = e' then isTrue (by rw [h]) else isFalse (by simp [h])
  | .error _, .ok _ => isFalse (by simp)
  | .ok _, .error _ => isFalse (by simp)
  | .ok a, .ok b =>
    if h : a = b then isTrue (by rw [h]) else isFalse (by simp [h])

/-- One indexing run over a namespace: an aborted run (raised exception)
leaves the persisted stores unchanged, since in the source every store
write happens after the last raising statement. -/
def applyBatch (fs : String → Option String) (hash : String → String)
    (s : NamespaceState) (records : List TxtRecord) : NamespaceState :=
  match index_course fs hash s records with
  | .ok s' => s'
  | .error _ => s

/-- A sequence of indexing runs against one namespace, starting from the
never-indexed state. -/
def runBatches (fs : String → Option String) (hash : String → String)
    (batches : List (List TxtRecord)) : NamespaceState :=
  batches.foldl (fun s b => applyBatch fs hash s b) emptyNamespace

/-!  ### Hybrid search (`rag_utils.hybrid_search`)

The search model is for one fixed query string; the two external calls
whose results depend on the query — `bm25.get_scores(tokens)` (rank_bm25)
and `similarity_search_with_relevance_scores` (Chroma + the embedding
provider) — enter the model as per-namespace inputs of a `SearchEnv`. -/

/-- The fused-score accumulator (`fused = \x7b\x7d`), modelled as an
insertion-ordered association list, exactly the iteration order of a
Python dict. -/
abbrev FusedMap := List ((String × Nat) × ℚ)

/-- `fused[key] = fused.get(key, 0.0) + v`: an existing key keeps its
position (Python dict update), a new key is appended at the end. -/
def upsert (f : FusedMap) (k : String × Nat) (v : ℚ) : FusedMap :=
  match f with
  | [] => [(k, v)]
  | (k', v') :: rest =>
    if k' = k then (k', v' + v) :: rest else (k', v') :: upsert rest k v

/-- `fused.get(key, 0.0)`. -/
def lookupD (f : FusedMap) (k : String × Nat) : ℚ :=
  match f with
  | [] => 0
  | (k', v') :: rest => if k' = k then v' else lookupD rest k

/-- Fold a list of `(key, weighted-normalized-score)` contributions into the
accumulator, one `fused[key] = fused.get(key, 0.0) + v` step per entry. -/
def applyContribs (f : FusedMap) (cs : List ((String × Nat) × ℚ)) : FusedMap :=
  cs.foldl (fun f kv => upsert f kv.1 kv.2) f

/-- `np.min` over a nonempty score array (`0` on `[]`, never used there). -/
def npMin : List ℚ → ℚ
  | [] => 0
  | x :: xs => xs.foldl min x

/-- `np.max` over a nonempty score array (`0` on `[]`, never used there). -/
def npMax : List ℚ → ℚ
  | [] => 0
  | x :: xs => xs.foldl max x

/-- `np.ptp(scores) = scores.max() - scores.min()`. -/
def npPtp (l : List ℚ) : ℚ := npMax l - npMin l

/-- The `1e-9` constant of the normalizations. -/
def EPS : ℚ := 1 / 1000000000

/-- `(scores - scores.min()) / (np.ptp(scores) + 1e-9)`. -/
def minMaxNorm (l : List ℚ) : List ℚ :=
  l.map (fun x => (x - npMin l) / (npPtp l + EPS))

/-- Ascending stable argsort of a score list (`np.argsort`; numpy's default
quicksort order among exactly-equal scores is implementation-defined, the
model fixes the stable order). -/
def argsortAsc (scores : List ℚ) : List Nat :=
  (List.range scores.length).foldr (insertAsc scores) []
where
  /-- Insert index `i` (originally before all indices of the tail) into an
  already sorted index list. -/
  insertAsc (scores : List ℚ) (i : Nat) : List Nat → List Nat
    | [] => [i]
    | j :: js =>
      if scores.getD i 0 ≤ scores.getD j 0 then i :: j :: js
      else j :: insertAsc scores i js

/-- `np.argsort(bm_norm)[::-1][:k]`. -/
def topIdx (scores : List ℚ) (k : Nat) : List Nat :=
  (argsortAsc scores).reverse.take k

/-- Errors a `hybrid_search` call can raise. -/
inductive SearchError where
  /-- `IndexError`, from `course[0]` on an empty string or `[0]` on an
  empty hit list. -/
  | indexError
  /-- An uncaught exception raised by
  `similarity_search_with_relevance_scores` — e.g. the embedding provider
  failing at query time.  Only the store **construction**
  (`get_vector_store_for_course`) sits inside a `try/except`; the query
  itself does not, so this error aborts the whole call. -/
  | embeddingError
deriving DecidableEq, Repr

/-- Per-namespace query-time inputs. -/
structure SearchEnv where
  /-- `load_bm25_pkg` by course slug: the unpickled payload arrays, or
  `none` when the pickle file is missing (`FileNotFoundError`, caught). -/
  bm : String → Option BM25Store
  /-- `bm25.get_scores(tokens)` for the query against the slug's pickled
  model: one raw score per corpus chunk (external rank_bm25 computation). -/
  bmScores : String → List ℚ
  /-- The vector side of a namespace.  `none`: `get_vector_store_for_course`
  raised — this is the only vector failure the source catches (`vs = None`,
  vectors skipped for that namespace).  `some (.error e)`: the store loaded
  but `similarity_search_with_relevance_scores(query, k=k_embed)` raised
  `e`; that call is **not** inside the `try/except`, so `e` propagates and
  aborts the whole `hybrid_search` call.  `some (.ok hits)`: the query
  returned `hits`. -/
  vec : String → Option (Except SearchError (List (Document × ℚ)))
  /-- `similarity_search_with_relevance_scores(query, k=1)` on the slug's
  store, used only by the assembly fallback when the BM25 package is
  missing; also unguarded, so an error here propagates. -/
  vecOne : String → Except SearchError (List (Document × ℚ))

/-- The `--- BM25 per course ---` block: when the pickle loaded and the
score array is non-empty, normalize all raw scores, take the top `k_bm25`
indices by normalized score, and contribute `w_bm25 * bm_norm[i]` under key
`(cslug, i)` for each, in top-index order. -/
def bmContribs (env : SearchEnv) (cslug : String) (k_bm25 : Nat) (w_bm25 : ℚ) :
    List ((String × Nat) × ℚ) :=
  match env.bm cslug with
  | none => []
  | some _ =>
    let bm_scores := env.bmScores cslug
    if bm_scores.length ≠ 0 then
      let bm_norm := minMaxNorm bm_scores
      (topIdx bm_norm k_bm25).map (fun i => ((cslug, i), w_bm25 * bm_norm.getD i 0))
    else []

/-- The `--- Vector per course ---` block: skipped when the store failed
to load (`vs is None`); when the query raised, the error propagates
uncaught; when it returned hits, normalize the hit scores within the hit
list and contribute `w_emb * sc` under key `(cslug, chunk_id)` per hit.
(The `doc.metadata.get("chunk_id", -1)` guard never fires here because
every stored chunk carries a `chunk_id`; the model's metadata always has
the field.) -/
def vecContribs (env : SearchEnv) (cslug : String) (w_emb : ℚ) :
    Except SearchError (List ((String × Nat) × ℚ)) :=
  match env.vec cslug with
  | none => .ok []
  | some (.error e) => .error e
  | some (.ok hits) =>
    if hits ≠ [] then
      let emb_norm := minMaxNorm (hits.map (fun h => h.2))
      .ok ((hits.zip emb_norm).map
        (fun p => ((cslug, p.1.1.metadata.chunk_id), w_emb * p.2)))
    else .ok []

/-- Both per-namespace blocks in source order (BM25 first, vectors
second); a vector-query error aborts the namespace's processing. -/
def nsContribs (env : SearchEnv) (cslug : String) (k_bm25 : Nat)
    (w_bm25 w_emb : ℚ) : Except SearchError (List ((String × Nat) × ℚ)) :=
  (vecContribs env cslug w_emb).map
    (fun v => bmContribs env cslug k_bm25 w_bm25 ++ v)

/-- `course = course[0]` on a Python string: its first character, an
`IndexError` on the empty string. -/
def firstChar (course : String) : Except SearchError String :=
  match course.data with
  | [] => .error .indexError
  | c :: _ => .ok (String.mk [c])

/-- The `for course in courses:` loop of `hybrid_search`, accumulating the
fused score map; an uncaught per-namespace error aborts the loop. -/
def fusedLoop (env : SearchEnv) (k_bm25 : Nat) (w_bm25 w_emb : ℚ) :
    FusedMap → List String → Except SearchError FusedMap
  | f, [] => .ok f
  | f, course :: rest => do
    let c ← firstChar course
    let ns ← nsContribs env (slug c) k_bm25 w_bm25 w_emb
    fusedLoop env k_bm25 w_bm25 w_emb (applyContribs f ns) rest

/-- The fused map a `hybrid_search` call builds over its course list. -/
def fusedMap (env : SearchEnv) (courses : List String) (k_bm25 : Nat)
    (w_bm25 w_emb : ℚ) : Except SearchError FusedMap :=
  fusedLoop env k_bm25 w_bm25 w_emb [] courses

/-- The result dictionaries of `hybrid_search`. -/
structure SearchResult where
  text : String
  meta : ChunkMeta
  score : ℚ
  preview : String
deriving DecidableEq, Repr

/-- Python's stable `sorted(fused.items(), key=lambda kv: kv[1],
reverse=True)`: descending by score, ties in insertion order. -/
def sortDescByScore (f : FusedMap) : FusedMap :=
  f.foldr insertDesc []
where
  /-- Stable descending insertion. -/
  insertDesc (x : (String × Nat) × ℚ) : FusedMap → FusedMap
    | [] => [x]
    | y :: ys => if y.2 ≤ x.2 then x :: y :: ys else y :: insertDesc x ys

/-- The preview construction: skip the stored header length, take 400
characters, append an ellipsis; fall back to position 0 when the text is
no longer than the recorded header. -/
def mkPreview (text : String) (hdr_len : Nat) : String :=
  if hdr_len < text.length then (text.drop hdr_len).take 400 ++ "..."
  else text.take 400 ++ "..."

/-- Assemble one selected `((cslug, idx), score)` entry: resolve text and
metadata from the BM25 arrays (an out-of-range `idx` raises `IndexError`,
as `pkg["chunks"][idx]` would); when the namespace has no BM25 package,
fall back to the best single vector hit (`none` result = the `continue`
branch).  `meta.setdefault("course", cslug)` is a no-op here because every
stored metadata dictionary carries its `course` key. -/
def assembleOne (env : SearchEnv) (entry : (String × Nat) × ℚ) :
    Except SearchError (Option SearchResult) :=
  let cslug := entry.1.1
  let idx := entry.1.2
  let score := entry.2
  match env.bm cslug with
  | none =>
    match env.vec cslug with
    | none => .ok none
    | some _ =>
      match env.vecOne cslug with
      | .error e => .error e
      | .ok [] => .error .indexError
      | .ok ((doc, _) :: _) =>
        .ok (some
          { text := doc.page_content
            meta := doc.metadata
            score := score
            preview := mkPreview doc.page_content doc.metadata.header_len })
  | some pkg =>
    match pkg.chunks.get? idx, pkg.metas.get? idx with
    | some text, some meta =>
      .ok (some
        { text := text
          meta := meta
          score := score
          preview := mkPreview text meta.header_len })
    | _, _ => .error .indexError

/-- The assembly loop over the globally ranked entries (`for (cslug, idx),
score in best:`), keeping output order and skipping the `continue` cases. -/
def assemble (env : SearchEnv) : FusedMap → Except SearchError (List SearchResult)
  | [] => .ok []
  | entry :: rest => do
    let item ← assembleOne env entry
    let out ← assemble env rest
    match item with
    | none => .ok out
    | some it => .ok (it :: out)

/-- `hybrid_search` of `rag_utils.py` for one fixed query: build the fused
map across the requested courses (each course string replaced by its first
character before the slug lookup), return `[]` when it is empty, otherwise
stably sort it descending by fused score, keep the top `k_final` and
assemble the result dictionaries. -/
def hybrid_search (env : SearchEnv) (courses : List String) (k_final : Nat)
    (k_bm25 : Nat) (w_bm25 w_emb : ℚ) :
    Except SearchError (List SearchResult) := do
  let fused ← fusedMap env courses k_bm25 w_bm25 w_emb
  if fused = [] then
    return []
  let best := (sortDescByScore fused).take k_final
  assemble env best

/-- The sum of the contribution values a key receives from a contribution
list (0 when the key never occurs). -/
def contribSum (cs : List ((String × Nat) × ℚ)) (k : String × Nat) : ℚ :=
  ((cs.filter (fun kv => kv.1 = k)).map (fun kv => kv.2)).sum

/-- The concatenation, in loop order, of every namespace's contribution
list over a course list — the full stream of
`fused[key] = fused.get(key, 0.0) + v` updates a `hybrid_search` call
performs (`IndexError` on an empty course string and any uncaught
vector-query error, as in the loop). -/
def allContribs (env : SearchEnv) (k_bm25 : Nat) (w_bm25 w_emb : ℚ) :
    List String → Except SearchError (List ((String × Nat) × ℚ))
  | [] => .ok []
  | course :: rest => do
    let c ← firstChar course
    let ns ← nsContribs env (slug c) k_bm25 w_bm25 w_emb
    let tail ← allContribs env k_bm25 w_bm25 w_emb rest
    .ok (ns ++ tail)

/-- The lexical normalization as claim C5 states it — a second definition
following the spec's words, for comparison with `bmContribs`: select the
top `k` chunks by raw score, then min-max normalize **within that top-k
score set only** (`(score - min) / (range + ε)` with min and range taken
over the top-k scores), then weight. -/
def bmContribs_claimed (raw : List ℚ) (cslug : String) (k : Nat) (w : ℚ) :
    List ((String × Nat) × ℚ) :=
  let top := topIdx raw k
  let topScores := top.map (fun i => raw.getD i 0)
  top.map (fun i =>
    ((cslug, i), w * ((raw.getD i 0 - npMin topScores) / (npPtp topScores + EPS))))

/-- A stored chunk with `chunk_id = 0`, used in concrete search runs. -/
def docM0 : Document := ⟨"c0", ⟨"m", "mod", "f0", "d", "p0", "k0", 0, 0⟩⟩

/-- A stored chunk with `chunk_id = 1`, used in concrete search runs. -/
def docM1 : Document := ⟨"c1", ⟨"m", "mod", "f1", "d", "p1", "k1", 0, 1⟩⟩

/-- A two-chunk namespace `"m"` where both signals are available: raw BM25
scores `[0, 4]` and vector hits `[(docM0, 1/2), (docM1, 1/4)]`. -/
def envEx : SearchEnv :=
  { bm := fun c =>
      if c = "m" then
        some ⟨[["t0"], ["t1"]], ["c0", "c1"], [docM0.metadata, docM1.metadata]⟩
      else none
    bmScores := fun c => if c = "m" then [0, 4] else []
    vec := fun c =>
      if c = "m" then some (.ok [(docM0, 1/2), (docM1, 1/4)]) else none
    vecOne := fun _ => .ok [] }

/-- A three-chunk namespace `"m"` with raw BM25 scores `[0, 1, 4]` and no
vector store, exercising the lexical normalization scope. -/
def env5 : SearchEnv :=
  { bm := fun c =>
      if c = "m" then
        some ⟨[["t0"], ["t1"], ["t2"]], ["c0", "c1", "c2"],
          [docM0.metadata, docM1.metadata,
           ⟨"m", "mod", "f2", "d", "p2", "k2", 0, 2⟩]⟩
      else none
    bmScores := fun c => if c = "m" then [0, 1, 4] else []
    vec := fun _ => none
    vecOne := fun _ => .ok [] }

/-- A never-indexed environment: no BM25 pickle anywhere, every vector
store loads as an empty collection whose queries return no hits. -/
def envEmpty : SearchEnv :=
  { bm := fun _ => none
    bmScores := fun _ => []
    vec := fun _ => some (.ok [])
    vecOne := fun _ => .ok [] }

/-- A namespace `"m"` whose BM25 pickle is present and scored, but whose
vector store, though loaded, raises at query time (embedding-provider
failure during `similarity_search_with_relevance_scores`). -/
def envFail : SearchEnv :=
  { bm := fun c =>
      if c = "m" then
        some ⟨[["t0"], ["t1"]], ["c0", "c1"], [docM0.metadata, docM1.metadata]⟩
      else none
    bmScores := fun c => if c = "m" then [0, 4] else []
    vec := fun c => if c = "m" then some (.error .embeddingError) else none
    vecOne := fun _ => .ok [] }

/-- The evaluated contribution stream of `envEx` over `["m"]` (lexical
entries first, then vector entries, as the loop emits them). -/
def LEx : List ((String × Nat) × ℚ) :=
  [(("m", 1), 1000000000/4000000001), (("m", 0), 0),
   (("m", 0), 187500000/250000001), (("m", 1), 0)]

/-- The evaluated contribution stream of `env5` over `["m"]` (lexical
only: `env5` has no vector store). -/
def L5 : List ((String × Nat) × ℚ) :=
  [(("m", 2), 4000000000/4000000001), (("m", 1), 1000000000/4000000001)]

/-- Chunk-id alignment of one namespace's two stores: position `i` of the
vector store holds the same text and metadata as position `i` of the
lexical store's parallel arrays, and the metadata at position `i` carries
`chunk_id = i` (so chunk ids are `0, 1, 2, …` in order: strictly
increasing, gapless, never reused). -/
def Aligned (s : NamespaceState) : Prop :=
  (vecDocs s).map (fun d => d.page_content) = lexChunks s ∧
  (vecDocs s).map (fun d => d.metadata) = lexMetas s ∧
  (lexMetas s).map (fun m => m.chunk_id) = List.range (lexMetas s).length

/-! Concrete inputs used by witnesses and counterexamples.  `hashEx` is the
identity function standing in for the sha256 hex digest (any function works
for these runs; only equality of keys matters). -/

/-- A tiny filesystem: `a.txt` and `b.txt` exist, everything else is
missing. -/
def fsEx : String → Option String :=
  fun p => if p = "a.txt" then some "hi" else if p = "b.txt" then some "bye" else none

/-- Stand-in for `content_hash` in concrete runs. -/
def hashEx : String → String := fun s => s

/-- A record whose file exists. -/
def recA : TxtRecord := ⟨"a", "d1", "CS", "m1", "a.txt"⟩

/-- A second record whose file exists. -/
def recB : TxtRecord := ⟨"b", "d1", "CS", "m1", "b.txt"⟩

/-- A record whose file is missing. -/
def recC : TxtRecord := ⟨"c", "d1", "CS", "m1", "c.txt"⟩

/-- A metadata entry carrying exactly the source key `recA` produces under
`hashEx` (`"a.txt|d1|hi"`). -/
def metaA : ChunkMeta := ⟨"CS", "m1", "a", "d1", "a.txt", "a.txt|d1|hi", 7, 0⟩

/-- A namespace whose lexical store already records `recA`'s source key but
whose vector store is absent (e.g. after a partial write). -/
def lexOnlyState : NamespaceState := ⟨none, some ⟨[["x"]], ["x"], [metaA]⟩⟩

/-! ### Chunker lemmas (claim C3) -/

theorem chunkFromAux_fuel_irrel (l : List Char) (size step : Nat)
    (hstep : 0 < step) :
    ∀ (fuel fuel' i : Nat), l.length - i < fuel → l.length - i < fuel' →
      chunkFromAux l size step i fuel = chunkFromAux l size step i fuel' := by
  intro fuel
  induction fuel with
  | zero => intro fuel' i h1 h2; omega
  | succ fuel ih =>
    intro fuel' i h1 h2
    match fuel', h2 with
    | fuel' + 1, h2 =>
      show chunkFromAux l size step i (fuel + 1) =
        chunkFromAux l size step i (fuel' + 1)
      rw [chunkFromAux, chunkFromAux]
      by_cases h : i < l.length
      · rw [if_pos h, if_pos h]
        by_cases hend : l.length ≤ i + size
        · rw [if_pos hend, if_pos hend]
        · rw [if_neg hend, if_neg hend, ih fuel' (i + step) (by omega) (by omega)]
      · rw [if_neg h, if_neg h]

/-- The one-step unfolding of the chunking loop. -/
theorem chunkFrom_eq (l : List Char) (size step : Nat) (hstep : 0 < step)
    (i : Nat) :
    chunkFrom l size step hstep i =
      if i < l.length then
        if l.length ≤ i + size then [(l.drop i).take size]
        else (l.drop i).take size :: chunkFrom l size step hstep (i + step)
      else [] := by
  show chunkFromAux l size step i (l.length - i + 1) = _
  rw [chunkFromAux]
  by_cases h : i < l.length
  · rw [if_pos h, if_pos h]
    by_cases hend : l.length ≤ i + size
    · rw [if_pos hend, if_pos hend]
    · rw [if_neg hend, if_neg hend]
      rw [chunkFromAux_fuel_irrel l size step hstep (l.length - i) (l.length - (i + step) + 1)
        (i + step) (by omega) (by omega)]
      rfl
  · rw [if_neg h, if_neg h]

theorem chunkFrom_get? (l : List Char) (size step : Nat) (hstep : 0 < step) :
    ∀ (j i : Nat), j < (chunkFrom l size step hstep i).length →
      (chunkFrom l size step hstep i).get? j =
        some ((l.drop (i + j * step)).take size) := by
  intro j
  induction j with
  | zero =>
    intro i hj
    have h : i < l.length := by
      by_contra hcon
      rw [chunkFrom_eq, if_neg hcon] at hj
      simp at hj
    rw [chunkFrom_eq, if_pos h]
    by_cases h2 : l.length ≤ i + size
    · rw [if_pos h2]; simp
    · rw [if_neg h2]; simp
  | succ j ih =>
    intro i hj
    have h : i < l.length := by
      by_contra hcon
      rw [chunkFrom_eq, if_neg hcon] at hj
      simp at hj
    have h2 : ¬ l.length ≤ i + size := by
      by_contra hcon
      rw [chunkFrom_eq, if_pos h, if_pos hcon] at hj
      simp at hj
    rw [chunkFrom_eq, if_pos h, if_neg h2] at hj ⊢
    simp only [List.length_cons, Nat.succ_lt_succ_iff] at hj
    rw [List.get?_cons_succ]
    rw [show i + (j + 1) * step = (i + step) + j * step from by ring]
    exact ih (i + step) hj

theorem chunkFrom_ne_nil (l : List Char) (size step : Nat) (hstep : 0 < step)
    (i : Nat) (h : i < l.length) : chunkFrom l size step hstep i ≠ [] := by
  rw [chunkFrom_eq, if_pos h]
  by_cases h2 : l.length ≤ i + size
  · rw [if_pos h2]; simp
  · rw [if_neg h2]; simp

theorem chunkFrom_cover (l : List Char) (size step : Nat) (hstep : 0 < step)
    (hss : step ≤ size) :
    ∀ (d j i : Nat), j - i ≤ d → i ≤ j → j < l.length →
      ∃ m, m < (chunkFrom l size step hstep i).length ∧
        i + m * step ≤ j ∧ j < i + m * step + size := by
  intro d
  induction d with
  | zero =>
    intro j i hd hij hj
    refine ⟨0, ?_, by omega, by omega⟩
    exact List.length_pos.mpr (chunkFrom_ne_nil l size step hstep i (by omega))
  | succ d ih =>
    intro j i hd hij hj
    by_cases hclose : j < i + size
    · refine ⟨0, ?_, by omega, by omega⟩
      exact List.length_pos.mpr (chunkFrom_ne_nil l size step hstep i (by omega))
    · have h : i < l.length := by omega
      have h2 : ¬ l.length ≤ i + size := by omega
      rw [chunkFrom_eq, if_pos h, if_neg h2]
      obtain ⟨m, hm, hlo, hhi⟩ :=
        ih j (i + step) (by omega) (by omega) hj
      refine ⟨m + 1, by simpa using Nat.succ_lt_succ hm, ?_, ?_⟩
      · rw [Nat.succ_mul]; omega
      · rw [Nat.succ_mul]; omega

theorem chunkFrom_getLast (l : List Char) (size step : Nat) (hstep : 0 < step)
    (hss : step ≤ size) :
    ∀ (d i : Nat), l.length - i ≤ d → i < l.length →
      ∃ hne : chunkFrom l size step hstep i ≠ [],
        i + ((chunkFrom l size step hstep i).length - 1) * step +
          ((chunkFrom l size step hstep i).getLast hne).length = l.length := by
  intro d
  induction d with
  | zero =>
    intro i hd hi
    omega
  | succ d ih =>
    intro i hd hi
    by_cases h2 : l.length ≤ i + size
    · rw [chunkFrom_eq, if_pos hi, if_pos h2]
      refine ⟨by simp, ?_⟩
      simp [List.length_take, List.length_drop]
      omega
    · rw [chunkFrom_eq, if_pos hi, if_neg h2]
      obtain ⟨hne, hlast⟩ := ih (i + step) (by omega) (by omega)
      refine ⟨by simp, ?_⟩
      rw [List.getLast_cons hne]
      have hlen : 0 < (chunkFrom l size step hstep (i + step)).length :=
        List.length_pos.mpr hne
      simp only [List.length_cons, Nat.add_sub_cancel]
      obtain ⟨m, hm⟩ : ∃ m, (chunkFrom l size step hstep (i + step)).length = m + 1 :=
        ⟨_, (Nat.succ_pred_eq_of_pos hlen).symm⟩
      rw [hm] at hlast ⊢
      rw [Nat.succ_mul]
      simp only [Nat.add_sub_cancel] at hlast
      omega

/-- Claim C3 — chunker coverage and window formula: for every text and every
`overlap < size`, window `i` of `chunk_text_fixed` is exactly the slice
`text[i*(size-overlap) : i*(size-overlap)+size]` clipped at the end of the
text; the windows jointly cover every character position; the final window
ends exactly at position `L = text.length` (so it may be shorter than
`size` and is never padded); and the empty text yields no windows. -/
theorem C3_chunk_coverage (text : String) (size overlap : Nat)
    (h : overlap < size) :
    (∀ i, i < (chunk_text_fixed text size overlap h).length →
        (chunk_text_fixed text size overlap h).get? i =
          some (String.mk ((text.data.drop (i * (size - overlap))).take size))) ∧
    (∀ j, j < text.length →
        ∃ i, i < (chunk_text_fixed text size overlap h).length ∧
          i * (size - overlap) ≤ j ∧ j < i * (size - overlap) + size) ∧
    (∀ hne : chunk_text_fixed text size overlap h ≠ [],
        ((chunk_text_fixed text size overlap h).length - 1) * (size - overlap) +
          ((chunk_text_fixed text size overlap h).getLast hne).length =
            text.length) ∧
    (text.length = 0 → chunk_text_fixed text size overlap h = []) := by
  have hstep : 0 < size - overlap := by omega
  have hss : size - overlap ≤ size := by omega
  refine ⟨?_, ?_, ?_, ?_⟩
  · intro i hi
    unfold chunk_text_fixed at hi ⊢
    rw [List.get?_map, chunkFrom_get? text.data size (size - overlap) hstep i 0
      (by simpa using hi)]
    simp
  · intro j hj
    have hj' : j < text.data.length := hj
    obtain ⟨m, hm, hlo, hhi⟩ :=
      chunkFrom_cover text.data size (size - overlap) hstep hss j j 0
        (by omega) (by omega) hj'
    refine ⟨m, ?_, by omega, by omega⟩
    unfold chunk_text_fixed
    simpa using hm
  · intro hne
    have hne' : chunkFrom text.data size (size - overlap) hstep 0 ≠ [] := by
      intro hcon
      apply hne
      unfold chunk_text_fixed
      rw [hcon]
      rfl
    have hi : 0 < text.data.length := by
      by_contra hcon
      apply hne'
      rw [chunkFrom_eq, if_neg (by omega)]
    obtain ⟨hne2, hlast⟩ :=
      chunkFrom_getLast text.data size (size - overlap) hstep hss
        text.data.length 0 (by omega) hi
    unfold chunk_text_fixed
    rw [List.getLast_map]
    simpa using hlast
  · intro h0
    have : ¬ (0 : Nat) < text.data.length := by
      simp only [String.length] at h0
      omega
    unfold chunk_text_fixed
    rw [chunkFrom_eq, if_neg (by omega)]
    rfl

/-- Witness for C3 at text `"abcde"`, `size = 3`, `overlap = 1` (windows
`"abc"`, `"cde"`): character position 4 is covered by some window. -/
theorem C3_chunk_coverage_witness :
    ∃ i, i < (chunk_text_fixed "abcde" 3 1 (by decide)).length ∧
      i * 2 ≤ 4 ∧ 4 < i * 2 + 3 :=
  (C3_chunk_coverage "abcde" 3 1 (by decide)).2.1 4 (by decide)

/-! ### Indexing lemmas (claims C1, C2, C6, C7, C8) -/

theorem index_course_eq (fs : String → Option String) (hash : String → String)
    (s : NamespaceState) (records : List TxtRecord) :
    index_course fs hash s records =
      if records = [] then .ok s
      else
        match buildNewChunks fs hash (existing_keys s) records with
        | .error e => .error e
        | .ok new_chunks =>
          if new_chunks = [] then .ok s else .ok (appendState s new_chunks) := by
  unfold index_course
  by_cases h : records = []
  · simp [h, pure, Except.pure]
  · simp only [h, if_false]
    cases hb : buildNewChunks fs hash (existing_keys s) records with
    | error e => simp [Except.bind, bind, hb, pure, Except.pure]
    | ok cs =>
      by_cases hcs : cs = [] <;>
        simp [Except.bind, bind, hb, hcs, pure, Except.pure]

theorem assign_ids_length (start : Nat) (cs : List Document) :
    (assign_ids start cs).length = cs.length := by
  induction cs generalizing start with
  | nil => rfl
  | cons c cs ih => simp [assign_ids, ih]

theorem assign_ids_map_content (start : Nat) (cs : List Document) :
    (assign_ids start cs).map (fun d => d.page_content) =
      cs.map (fun d => d.page_content) := by
  induction cs generalizing start with
  | nil => rfl
  | cons c cs ih => simp [assign_ids, ih]

theorem assign_ids_map_key (start : Nat) (cs : List Document) :
    (assign_ids start cs).map (fun d => d.metadata.source_key) =
      cs.map (fun d => d.metadata.source_key) := by
  induction cs generalizing start with
  | nil => rfl
  | cons c cs ih => simp [assign_ids, ih]

theorem assign_ids_chunk_ids (start : Nat) (cs : List Document) :
    (assign_ids start cs).map (fun d => d.metadata.chunk_id) =
      List.range' start cs.length := by
  induction cs generalizing start with
  | nil => rfl
  | cons c cs ih => simp [assign_ids, ih, List.range'_succ]

theorem read_text_ok (fs : String → Option String) (p raw : String)
    (h : read_text fs p = .ok raw) : fs p = some raw := by
  unfold read_text at h
  cases hfs : fs p with
  | some t => rw [hfs] at h; simp at h; simp [h]
  | none => rw [hfs] at h; simp at h

theorem buildNewChunks_skip (fs : String → Option String)
    (hash : String → String) (keys : List String) (r : TxtRecord)
    (rest : List TxtRecord) (raw : String)
    (hread : fs r.file_path = some raw)
    (hmem : sourceKey hash r raw ∈ keys) :
    buildNewChunks fs hash keys (r :: rest) =
      buildNewChunks fs hash keys rest := by
  conv_lhs => rw [buildNewChunks]
  simp only [read_text, hread]
  cases hb : buildNewChunks fs hash keys rest <;>
    simp [Except.bind, bind, hb, hmem, pure, Except.pure]

theorem buildNewChunks_spec (fs : String → Option String)
    (hash : String → String) (keys : List String) :
    ∀ (records : List TxtRecord) (cs : List Document),
      buildNewChunks fs hash keys records = .ok cs →
      ∀ r ∈ records, ∃ raw, fs r.file_path = some raw ∧
        (sourceKey hash r raw ∈ keys ∨
         sourceKey hash r raw ∈ cs.map (fun d => d.metadata.source_key) ∨
         record_chunks hash r raw = []) := by
  intro records
  induction records with
  | nil => intro cs _ r hr; simp at hr
  | cons r0 rest ih =>
    intro cs hok r hr
    rw [buildNewChunks] at hok
    cases hread : read_text fs r0.file_path with
    | error e => rw [hread] at hok; simp [Except.bind, bind] at hok
    | ok raw0 =>
      rw [hread] at hok
      cases htail : buildNewChunks fs hash keys rest with
      | error e => rw [htail] at hok; simp [Except.bind, bind] at hok
      | ok tail =>
        rw [htail] at hok
        simp only [Except.bind, bind] at hok
        have hraw0 : fs r0.file_path = some raw0 := read_text_ok fs _ _ hread
        by_cases hmem : sourceKey hash r0 raw0 ∈ keys
        · rw [if_pos hmem] at hok
          have hcs : tail = cs := by simpa [pure, Except.pure] using hok
          subst hcs
          rcases List.mem_cons.mp hr with hr0 | hrr
          · subst hr0; exact ⟨raw0, hraw0, Or.inl hmem⟩
          · exact ih tail htail r hrr
        · rw [if_neg hmem] at hok
          have hcs : record_chunks hash r0 raw0 ++ tail = cs := by
            simpa [pure, Except.pure] using hok
          rcases List.mem_cons.mp hr with hr0 | hrr
          · subst hr0
            by_cases hrc : record_chunks hash r raw0 = []
            · exact ⟨raw0, hraw0, Or.inr (Or.inr hrc)⟩
            · refine ⟨raw0, hraw0, Or.inr (Or.inl ?_)⟩
              obtain ⟨d, hd⟩ := List.exists_mem_of_ne_nil _ hrc
              have hdk : d.metadata.source_key = sourceKey hash r raw0 := by
                unfold record_chunks at hd
                obtain ⟨b, _, hb⟩ := List.mem_map.mp hd
                rw [← hb]
              rw [← hcs]
              exact List.mem_map.mpr ⟨d, List.mem_append_left _ hd, hdk⟩
          · obtain ⟨raw, hfs, hd⟩ := ih tail htail r hrr
            refine ⟨raw, hfs, ?_⟩
            rcases hd with h1 | h2 | h3
            · exact Or.inl h1
            · refine Or.inr (Or.inl ?_)
              rw [← hcs]
              simp only [List.map_append, List.mem_append]
              exact Or.inr h2
            · exact Or.inr (Or.inr h3)

theorem buildNewChunks_all_skipped (fs : String → Option String)
    (hash : String → String) :
    ∀ (records : List TxtRecord) (keys keys' : List String)
      (cs : List Document),
      buildNewChunks fs hash keys records = .ok cs →
      (∀ r ∈ records, ∀ raw, fs r.file_path = some raw →
        sourceKey hash r raw ∈ keys' ∨ record_chunks hash r raw = []) →
      buildNewChunks fs hash keys' records = .ok [] := by
  intro records
  induction records with
  | nil => intro keys keys' cs _ _; rfl
  | cons r0 rest ih =>
    intro keys keys' cs hok hall
    rw [buildNewChunks] at hok ⊢
    cases hread : read_text fs r0.file_path with
    | error e => rw [hread] at hok; simp [Except.bind, bind] at hok
    | ok raw0 =>
      rw [hread] at hok
      cases htail : buildNewChunks fs hash keys rest with
      | error e => rw [htail] at hok; simp [Except.bind, bind] at hok
      | ok tail =>
        have hraw0 : fs r0.file_path = some raw0 := read_text_ok fs _ _ hread
        have hrest : buildNewChunks fs hash keys' rest = .ok [] :=
          ih keys keys' tail htail
            (fun r hr raw hfs => hall r (List.mem_cons_of_mem _ hr) raw hfs)
        rw [hrest]
        rcases hall r0 (List.mem_cons_self _ _) raw0 hraw0 with hmem | hrc
        · simp [Except.bind, bind, hmem, pure, Except.pure]
        · by_cases hmem : sourceKey hash r0 raw0 ∈ keys' <;>
            simp [Except.bind, bind, hmem, hrc, pure, Except.pure]

theorem index_course_nil (fs : String → Option String)
    (hash : String → String) (s : NamespaceState) (records : List TxtRecord)
    (h : records = []) : index_course fs hash s records = .ok s := by
  rw [index_course_eq, if_pos h]

theorem index_course_error (fs : String → Option String)
    (hash : String → String) (s : NamespaceState) (records : List TxtRecord)
    (h : records ≠ []) (e : IndexError)
    (hb : buildNewChunks fs hash (existing_keys s) records = .error e) :
    index_course fs hash s records = .error e := by
  rw [index_course_eq, if_neg h, hb]

theorem index_course_ok_nil (fs : String → Option String)
    (hash : String → String) (s : NamespaceState) (records : List TxtRecord)
    (h : records ≠ [])
    (hb : buildNewChunks fs hash (existing_keys s) records = .ok []) :
    index_course fs hash s records = .ok s := by
  rw [index_course_eq, if_neg h, hb]
  rfl

theorem index_course_ok_cons (fs : String → Option String)
    (hash : String → String) (s : NamespaceState) (records : List TxtRecord)
    (cs : List Document) (h : records ≠ [])
    (hb : buildNewChunks fs hash (existing_keys s) records = .ok cs)
    (hcs : cs ≠ []) :
    index_course fs hash s records = .ok (appendState s cs) := by
  rw [index_course_eq, if_neg h, hb]
  show (if cs = [] then Except.ok s else Except.ok (appendState s cs)) = _
  rw [if_neg hcs]

theorem existing_keys_appendState (s : NamespaceState) (cs : List Document) :
    existing_keys (appendState s cs) =
      existing_keys s ++ cs.map (fun d => d.metadata.source_key) := by
  obtain ⟨v, b⟩ := s
  cases v <;> cases b <;>
    simp [appendState, existing_keys, assign_ids_map_key]

/-- Claim C1 — idempotent re-indexing: (1) a document whose source key
(`file_path|date|sha256(text)`) is already in the namespace's loaded key
set is skipped whole — it contributes no chunks at all; (2) hence rerunning
`index_course` on the identical batch after a successful run returns the
post-run state unchanged: zero new chunks, both stores as they were. -/
theorem C1_idempotent_indexing :
    (∀ (fs : String → Option String) (hash : String → String)
      (keys : List String) (r : TxtRecord) (rest : List TxtRecord)
      (raw : String),
      fs r.file_path = some raw → sourceKey hash r raw ∈ keys →
      buildNewChunks fs hash keys (r :: rest) =
        buildNewChunks fs hash keys rest) ∧
    (∀ (fs : String → Option String) (hash : String → String)
      (s s₁ : NamespaceState) (records : List TxtRecord),
      index_course fs hash s records = .ok s₁ →
      index_course fs hash s₁ records = .ok s₁) := by
  constructor
  · intro fs hash keys r rest raw hread hmem
    exact buildNewChunks_skip fs hash keys r rest raw hread hmem
  · intro fs hash s s₁ records h1
    by_cases hrec : records = []
    · rw [index_course_nil fs hash s records hrec] at h1
      have hss : s = s₁ := by simpa using h1
      subst hss
      exact index_course_nil fs hash s records hrec
    · cases hb : buildNewChunks fs hash (existing_keys s) records with
      | error e =>
        rw [index_course_error fs hash s records hrec e hb] at h1
        simp at h1
      | ok cs =>
        by_cases hcs : cs = []
        · subst hcs
          rw [index_course_ok_nil fs hash s records hrec hb] at h1
          have hss : s = s₁ := by simpa using h1
          subst hss
          exact index_course_ok_nil fs hash s records hrec hb
        · rw [index_course_ok_cons fs hash s records cs hrec hb hcs] at h1
          have hs1 : s₁ = appendState s cs := by
            have h1' : appendState s cs = s₁ := by simpa using h1
            exact h1'.symm
          have hall : ∀ r ∈ records, ∀ raw, fs r.file_path = some raw →
              sourceKey hash r raw ∈ existing_keys s₁ ∨
                record_chunks hash r raw = [] := by
            intro r hr raw hfs
            obtain ⟨raw', hfs', hd⟩ :=
              buildNewChunks_spec fs hash (existing_keys s) records cs hb r hr
            have heq : raw' = raw := by
              rw [hfs] at hfs'
              exact (Option.some.inj hfs').symm
            subst heq
            rw [hs1, existing_keys_appendState]
            rcases hd with hk | hk | hk
            · exact Or.inl (List.mem_append_left _ hk)
            · exact Or.inl (List.mem_append_right _ hk)
            · exact Or.inr hk
          have hb2 : buildNewChunks fs hash (existing_keys s₁) records = .ok [] :=
            buildNewChunks_all_skipped fs hash records (existing_keys s)
              (existing_keys s₁) cs hb hall
          exact index_course_ok_nil fs hash s₁ records hrec hb2

/-- Witness for C1: after indexing the batch `[recA]` into a fresh
namespace, indexing the very same batch again is accepted and returns the
state unchanged. -/
theorem C1_idempotent_indexing_witness :
    index_course fsEx hashEx (applyBatch fsEx hashEx emptyNamespace [recA])
        [recA] =
      .ok (applyBatch fsEx hashEx emptyNamespace [recA]) :=
  C1_idempotent_indexing.2 fsEx hashEx emptyNamespace
    (applyBatch fsEx hashEx emptyNamespace [recA]) [recA] (by decide)

theorem assign_ids_metas_ids (start : Nat) (cs : List Document) :
    ((assign_ids start cs).map (fun d => d.metadata)).map (fun m => m.chunk_id) =
      List.range' start cs.length := by
  induction cs generalizing start with
  | nil => rfl
  | cons c cs ih => simp [assign_ids, ih, List.range'_succ]

theorem vecDocs_appendState (s : NamespaceState) (cs : List Document) :
    vecDocs (appendState s cs) =
      vecDocs s ++ assign_ids (start_chunk_id s) cs := by
  obtain ⟨v, b⟩ := s
  cases v <;> cases b <;> simp [appendState, vecDocs, start_chunk_id]

theorem lexChunks_appendState (s : NamespaceState) (cs : List Document) :
    lexChunks (appendState s cs) =
      lexChunks s ++
        (assign_ids (start_chunk_id s) cs).map (fun d => d.page_content) := by
  obtain ⟨v, b⟩ := s
  cases v <;> cases b <;> simp [appendState, lexChunks, start_chunk_id]

theorem lexMetas_appendState (s : NamespaceState) (cs : List Document) :
    lexMetas (appendState s cs) =
      lexMetas s ++
        (assign_ids (start_chunk_id s) cs).map (fun d => d.metadata) := by
  obtain ⟨v, b⟩ := s
  cases v <;> cases b <;> simp [appendState, lexMetas, start_chunk_id]

theorem start_chunk_id_eq (s : NamespaceState) :
    start_chunk_id s = (vecDocs s).length := by
  obtain ⟨v, b⟩ := s
  cases v <;> simp [start_chunk_id, vecDocs, collection_count_safe]

theorem range_append_range' (a b : Nat) :
    List.range a ++ List.range' a b = List.range (a + b) := by
  rw [List.range_eq_range', List.range_eq_range']
  have := List.range'_append 0 a b 1
  simpa [Nat.add_comm] using this

theorem Aligned_appendState (s : NamespaceState) (cs : List Document)
    (h : Aligned s) : Aligned (appendState s cs) := by
  obtain ⟨h1, h2, h3⟩ := h
  have hstart : start_chunk_id s = (lexMetas s).length := by
    rw [start_chunk_id_eq, ← h2, List.length_map]
  refine ⟨?_, ?_, ?_⟩
  · rw [vecDocs_appendState, lexChunks_appendState, List.map_append, h1]
  · rw [vecDocs_appendState, lexMetas_appendState, List.map_append, h2]
  · rw [lexMetas_appendState, List.map_append, h3, List.length_append,
      assign_ids_metas_ids, List.length_map, assign_ids_length, hstart,
      range_append_range']

theorem Aligned_applyBatch (fs : String → Option String)
    (hash : String → String) (s : NamespaceState) (records : List TxtRecord)
    (h : Aligned s) : Aligned (applyBatch fs hash s records) := by
  unfold applyBatch
  by_cases hrec : records = []
  · rw [index_course_nil fs hash s records hrec]; exact h
  · cases hb : buildNewChunks fs hash (existing_keys s) records with
    | error e => rw [index_course_error fs hash s records hrec e hb]; exact h
    | ok cs =>
      by_cases hcs : cs = []
      · subst hcs
        rw [index_course_ok_nil fs hash s records hrec hb]; exact h
      · rw [index_course_ok_cons fs hash s records cs hrec hb hcs]
        exact Aligned_appendState s cs h

/-- Claim C2 — chunk-id alignment invariant: after any sequence of indexing
runs on a fresh namespace, the vector store's documents and the lexical
store's parallel `chunks`/`metas` arrays agree position by position (same
text, same metadata), and the metadata array's chunk ids are exactly
`0, 1, …, n-1` in order — so ids assigned across runs are strictly
increasing, with no gaps and no reuse, and a `chunk_id` resolves to the
same text and metadata in both stores. -/
theorem C2_chunk_id_alignment (fs : String → Option String)
    (hash : String → String) (batches : List (List TxtRecord)) :
    (vecDocs (runBatches fs hash batches)).map (fun d => d.page_content) =
        lexChunks (runBatches fs hash batches) ∧
    (vecDocs (runBatches fs hash batches)).map (fun d => d.metadata) =
        lexMetas (runBatches fs hash batches) ∧
    (lexMetas (runBatches fs hash batches)).map (fun m => m.chunk_id) =
        List.range (lexMetas (runBatches fs hash batches)).length := by
  have key : ∀ (bs : List (List TxtRecord)) (s : NamespaceState), Aligned s →
      Aligned (bs.foldl (fun s b => applyBatch fs hash s b) s) := by
    intro bs
    induction bs with
    | nil => intro s hs; exact hs
    | cons b bs ih =>
      intro s hs
      exact ih _ (Aligned_applyBatch fs hash s b hs)
  exact key batches emptyNamespace
    (by refine ⟨?_, ?_, ?_⟩ <;> simp [vecDocs, lexChunks, lexMetas, emptyNamespace])

/-- Counterexample to claim C6: in `lexOnlyState` the lexical store's
metadata records exactly the source key that `recA` produces, so under the
claim ("the key set is loaded from the Lexical Index Store's stored
metadata and used for the membership test") the document would be skipped
and no chunk added; but the code loads the key set from the vector store
(absent here, so the loaded set is empty) and indexes the document: the
lexical array grows from 1 to 2 chunks. -/
theorem C6_counterexample :
    sourceKey hashEx recA "hi" ∈
        (lexMetas lexOnlyState).map (fun m => m.source_key) ∧
    existing_keys lexOnlyState = [] ∧
    (index_course fsEx hashEx lexOnlyState [recA]).toOption.map
        (fun s => (lexChunks s).length) = some 2 := by decide

/-- Claim C6, amended — dedup key source of truth: `index_course` loads the
namespace's existing source-key set from the **Vector** Index Store's
metadata (the empty set when the namespace has no vector store), and that
loaded set is the one used for the skip-or-index membership test: a
document whose key is in it contributes nothing, a document whose key is
not in it contributes all of its chunks. -/
theorem C6_dedup_key_source :
    (∀ (s : NamespaceState) (vs : VectorStore), s.vector = some vs →
      existing_keys s = vs.docs.map (fun d => d.metadata.source_key)) ∧
    (∀ s : NamespaceState, s.vector = none → existing_keys s = []) ∧
    (∀ (fs : String → Option String) (hash : String → String)
      (s : NamespaceState) (r : TxtRecord) (rest : List TxtRecord)
      (raw : String),
      fs r.file_path = some raw →
      sourceKey hash r raw ∈ existing_keys s →
      buildNewChunks fs hash (existing_keys s) (r :: rest) =
        buildNewChunks fs hash (existing_keys s) rest) ∧
    (∀ (fs : String → Option String) (hash : String → String)
      (s : NamespaceState) (r : TxtRecord) (rest : List TxtRecord)
      (raw : String) (tail : List Document),
      fs r.file_path = some raw →
      sourceKey hash r raw ∉ existing_keys s →
      buildNewChunks fs hash (existing_keys s) rest = .ok tail →
      buildNewChunks fs hash (existing_keys s) (r :: rest) =
        .ok (record_chunks hash r raw ++ tail)) := by
  refine ⟨?_, ?_, ?_, ?_⟩
  · intro s vs hv; unfold existing_keys; rw [hv]
  · intro s hv; unfold existing_keys; rw [hv]
  · intro fs hash s r rest raw hread hmem
    exact buildNewChunks_skip fs hash (existing_keys s) r rest raw hread hmem
  · intro fs hash s r rest raw tail hread hmem htail
    conv_lhs => rw [buildNewChunks]
    simp only [read_text, hread, htail]
    simp [Except.bind, bind, hmem, pure, Except.pure]

/-- Witness for the amended C6 at `lexOnlyState`: `recA`'s key is not in
the (vector-derived, empty) loaded key set, so the document is indexed in
full even though the lexical store already records its key. -/
theorem C6_dedup_key_source_witness :
    buildNewChunks fsEx hashEx (existing_keys lexOnlyState) [recA] =
      .ok (record_chunks hashEx recA "hi" ++ []) :=
  C6_dedup_key_source.2.2.2 fsEx hashEx lexOnlyState recA [] "hi" []
    (by decide) (by decide) (by decide)

/-- Counterexample to claim C7: in `lexOnlyState` the vector store is
absent and the lexical store holds 1 chunk, so under the claim ("falling
back to the Lexical Index Store's chunk count") the new chunk would get
`chunk_id = 1`; the code instead starts at 0 (`start_id = ... if
vector_store else 0`), producing metas with chunk ids `[0, 0]` — the new
chunk got id 0 and even collides with the stored one. -/
theorem C7_counterexample :
    lexOnlyState.vector = none ∧
    (lexChunks lexOnlyState).length = 1 ∧
    (index_course fsEx hashEx lexOnlyState [recA]).toOption.map
        (fun s => (lexMetas s).map (fun m => m.chunk_id)) = some [0, 0] := by
  decide

/-- Claim C7, amended — chunk-id starting offset: a run that produces new
chunks assigns the first new `chunk_id` equal to the count of chunks in
the namespace's Vector Index Store, and **0** when the vector store is
absent (there is no fallback to the Lexical Index Store's count);
subsequent ids increment by one per chunk in document order then chunk
order. -/
theorem C7_chunk_id_offset (fs : String → Option String)
    (hash : String → String) (s : NamespaceState) (records : List TxtRecord)
    (cs : List Document) (hrec : records ≠ [])
    (hb : buildNewChunks fs hash (existing_keys s) records = .ok cs)
    (hcs : cs ≠ []) :
    index_course fs hash s records = .ok (appendState s cs) ∧
    start_chunk_id s = (vecDocs s).length ∧
    (lexMetas (appendState s cs)).map (fun m => m.chunk_id) =
      (lexMetas s).map (fun m => m.chunk_id) ++
        List.range' (start_chunk_id s) cs.length := by
  refine ⟨index_course_ok_cons fs hash s records cs hrec hb hcs,
    start_chunk_id_eq s, ?_⟩
  rw [lexMetas_appendState, List.map_append, assign_ids_metas_ids]

/-- Witness for the amended C7 at `lexOnlyState` (vector store absent): the
appended ids start at `start_chunk_id lexOnlyState = 0`. -/
theorem C7_chunk_id_offset_witness :
    (lexMetas (appendState lexOnlyState (record_chunks hashEx recA "hi"))).map
        (fun m => m.chunk_id) =
      (lexMetas lexOnlyState).map (fun m => m.chunk_id) ++
        List.range' (start_chunk_id lexOnlyState)
          (record_chunks hashEx recA "hi").length :=
  (C7_chunk_id_offset fsEx hashEx lexOnlyState [recA]
    (record_chunks hashEx recA "hi") (by decide) (by decide) (by decide)).2.2

/-- Counterexample to claim C8: the batch `[recC, recB]` has one document
with a missing file (`c.txt`) and one sibling with a readable file
(`b.txt`); the claim says the failing document is skipped and the sibling
is still indexed, but `index_course` has no per-document handler — the
`FileNotFoundError` propagates and the whole call aborts with no store
mutation, so the sibling is not indexed either. -/
theorem C8_counterexample :
    fsEx recC.file_path = none ∧
    fsEx recB.file_path = some "bye" ∧
    index_course fsEx hashEx emptyNamespace [recC, recB] =
      .error (.fileNotFound "c.txt") := by decide

theorem buildNewChunks_error_of_missing (fs : String → Option String)
    (hash : String → String) (keys : List String) :
    ∀ (records : List TxtRecord) (r : TxtRecord), r ∈ records →
      fs r.file_path = none →
      ∃ e, buildNewChunks fs hash keys records = .error e := by
  intro records
  induction records with
  | nil => intro r hr; simp at hr
  | cons r0 rest ih =>
    intro r hr hmiss
    rw [buildNewChunks]
    cases hfs : fs r0.file_path with
    | none =>
      refine ⟨.fileNotFound r0.file_path, ?_⟩
      simp [read_text, hfs, Except.bind, bind]
    | some raw0 =>
      have hrr : r ∈ rest := by
        rcases List.mem_cons.mp hr with hr0 | hrr
        · subst hr0; rw [hfs] at hmiss; simp at hmiss
        · exact hrr
      obtain ⟨e, he⟩ := ih r hrr hmiss
      refine ⟨e, ?_⟩
      simp [read_text, hfs, he, Except.bind, bind]

/-- Claim C8, amended — read failure aborts the batch: if any document of
the batch has an unreadable file, `index_course` raises (there is no
per-document isolation), no sibling document of the batch is indexed, and
neither store is mutated (the run's observable effect is the unchanged
state). -/
theorem C8_read_failure_aborts_batch (fs : String → Option String)
    (hash : String → String) (s : NamespaceState) (records : List TxtRecord)
    (r : TxtRecord) (hr : r ∈ records) (hmiss : fs r.file_path = none) :
    (∃ e, index_course fs hash s records = .error e) ∧
    applyBatch fs hash s records = s := by
  have hrec : records ≠ [] := by
    intro hcon; rw [hcon] at hr; simp at hr
  obtain ⟨e, he⟩ :=
    buildNewChunks_error_of_missing fs hash (existing_keys s) records r hr hmiss
  have herr := index_course_error fs hash s records hrec e he
  exact ⟨⟨e, herr⟩, by unfold applyBatch; rw [herr]⟩

/-- Witness for the amended C8: with `c.txt` missing the two-document batch
raises and the state is untouched. -/
theorem C8_read_failure_aborts_batch_witness :
    (∃ e, index_course fsEx hashEx emptyNamespace [recC, recB] = .error e) ∧
    applyBatch fsEx hashEx emptyNamespace [recC, recB] = emptyNamespace :=
  C8_read_failure_aborts_batch fsEx hashEx emptyNamespace [recC, recB] recC
    (by decide) (by decide)

/-! ### Hybrid-search lemmas (claims C4, C5, C9, C10) -/

theorem lookupD_upsert (f : FusedMap) (k : String × Nat) (v : ℚ)
    (k' : String × Nat) :
    lookupD (upsert f k v) k' =
      if k' = k then lookupD f k' + v else lookupD f k' := by
  induction f with
  | nil =>
    by_cases h : k' = k
    · subst h; simp [upsert, lookupD]
    · have h2 : ¬ k = k' := fun hh => h hh.symm
      simp [upsert, lookupD, h, h2]
  | cons kv rest ih =>
    obtain ⟨k0, v0⟩ := kv
    by_cases h0 : k0 = k
    · subst h0
      by_cases h' : k' = k0
      · subst h'; simp [upsert, lookupD]
      · have h2 : ¬ k0 = k' := fun hh => h' hh.symm
        simp [upsert, lookupD, h', h2]
    · by_cases h' : k' = k0
      · subst h'
        simp [upsert, lookupD, h0, Ne.symm h0]
      · have h2 : ¬ k0 = k' := fun hh => h' hh.symm
        simp [upsert, lookupD, h0, h', h2, ih]

theorem lookupD_applyContribs (cs : List ((String × Nat) × ℚ)) :
    ∀ (f : FusedMap) (k : String × Nat),
      lookupD (applyContribs f cs) k = lookupD f k + contribSum cs k := by
  induction cs with
  | nil => intro f k; simp [applyContribs, contribSum]
  | cons kv cs ih =>
    intro f k
    obtain ⟨k0, v0⟩ := kv
    show lookupD (applyContribs (upsert f k0 v0) cs) k = _
    rw [ih, lookupD_upsert]
    by_cases h : k = k0
    · subst h
      simp [contribSum]
      ring
    · simp [contribSum, h, Ne.symm h]

theorem applyContribs_append (f : FusedMap)
    (a b : List ((String × Nat) × ℚ)) :
    applyContribs f (a ++ b) = applyContribs (applyContribs f a) b := by
  simp [applyContribs, List.foldl_append]

theorem fusedLoop_eq (env : SearchEnv) (k_bm25 : Nat) (w_bm25 w_emb : ℚ) :
    ∀ (courses : List String) (f : FusedMap),
      fusedLoop env k_bm25 w_bm25 w_emb f courses =
        (allContribs env k_bm25 w_bm25 w_emb courses).map
          (fun L => applyContribs f L) := by
  intro courses
  induction courses with
  | nil => intro f; rfl
  | cons c rest ih =>
    intro f
    rw [fusedLoop, allContribs]
    cases hc : firstChar c with
    | error e => simp [Except.bind, bind, Except.map]
    | ok ch =>
      simp only [Except.bind, bind]
      cases hns : nsContribs env (slug ch) k_bm25 w_bm25 w_emb with
      | error e => simp [Except.map]
      | ok ns =>
        dsimp only
        rw [ih]
        cases ht : allContribs env k_bm25 w_bm25 w_emb rest with
        | error e => simp [Except.map]
        | ok tail => simp [Except.map, pure, Except.pure, applyContribs_append]

theorem fusedMap_eq (env : SearchEnv) (courses : List String) (k_bm25 : Nat)
    (w_bm25 w_emb : ℚ) :
    fusedMap env courses k_bm25 w_bm25 w_emb =
      (allContribs env k_bm25 w_bm25 w_emb courses).map
        (fun L => applyContribs [] L) :=
  fusedLoop_eq env k_bm25 w_bm25 w_emb courses []

theorem lookupD_fusedMap (env : SearchEnv) (courses : List String)
    (k_bm25 : Nat) (w_bm25 w_emb : ℚ) (L : List ((String × Nat) × ℚ))
    (h : allContribs env k_bm25 w_bm25 w_emb courses = .ok L) :
    fusedMap env courses k_bm25 w_bm25 w_emb = .ok (applyContribs [] L) ∧
    ∀ k, lookupD (applyContribs [] L) k = contribSum L k := by
  constructor
  · rw [fusedMap_eq, h]; rfl
  · intro k
    rw [lookupD_applyContribs]
    simp [lookupD]

theorem mem_insertDesc (x : (String × Nat) × ℚ) :
    ∀ (l : FusedMap) (a : (String × Nat) × ℚ),
      a ∈ sortDescByScore.insertDesc x l ↔ a = x ∨ a ∈ l := by
  intro l
  induction l with
  | nil => intro a; simp [sortDescByScore.insertDesc]
  | cons y ys ih =>
    intro a
    by_cases h : y.2 ≤ x.2 <;>
      simp [sortDescByScore.insertDesc, h, ih] <;> tauto

theorem perm_insertDesc (x : (String × Nat) × ℚ) (l : FusedMap) :
    (sortDescByScore.insertDesc x l).Perm (x :: l) := by
  induction l with
  | nil => exact List.Perm.refl _
  | cons y ys ih =>
    by_cases h : y.2 ≤ x.2
    · simp [sortDescByScore.insertDesc, h]
    · simp only [sortDescByScore.insertDesc, if_neg h]
      exact (ih.cons y).trans (List.Perm.swap x y ys)

theorem sortDesc_perm (f : FusedMap) : (sortDescByScore f).Perm f := by
  induction f with
  | nil => exact List.Perm.refl _
  | cons kv rest ih =>
    exact (perm_insertDesc kv _).trans (ih.cons kv)

theorem sorted_insertDesc (x : (String × Nat) × ℚ) (l : FusedMap)
    (h : List.Sorted (fun a b => b.2 ≤ a.2) l) :
    List.Sorted (fun a b => b.2 ≤ a.2) (sortDescByScore.insertDesc x l) := by
  induction l with
  | nil => simp [sortDescByScore.insertDesc]
  | cons y ys ih =>
    rw [List.sorted_cons] at h
    obtain ⟨hy, hys⟩ := h
    by_cases hxy : y.2 ≤ x.2
    · simp only [sortDescByScore.insertDesc, if_pos hxy]
      rw [List.sorted_cons]
      refine ⟨?_, ?_⟩
      · intro b hb
        rcases List.mem_cons.mp hb with rfl | hb
        · exact hxy
        · exact le_trans (hy b hb) hxy
      · rw [List.sorted_cons]; exact ⟨hy, hys⟩
    · simp only [sortDescByScore.insertDesc, if_neg hxy]
      rw [List.sorted_cons]
      refine ⟨?_, ih hys⟩
      intro b hb
      rcases (mem_insertDesc x ys b).mp hb with rfl | hb
      · exact le_of_not_le hxy
      · exact hy b hb

theorem sorted_sortDesc (f : FusedMap) :
    List.Sorted (fun a b => b.2 ≤ a.2) (sortDescByScore f) := by
  induction f with
  | nil => simp [sortDescByScore]
  | cons kv rest ih => exact sorted_insertDesc kv _ ih

theorem assembleOne_score (env : SearchEnv) (e : (String × Nat) × ℚ)
    (it : SearchResult) (h : assembleOne env e = .ok (some it)) :
    it.score = e.2 := by
  unfold assembleOne at h
  dsimp only at h
  cases hbm : env.bm e.1.1 with
  | none =>
    rw [hbm] at h
    cases hvec : env.vec e.1.1 with
    | none => rw [hvec] at h; simp at h
    | some q =>
      rw [hvec] at h
      cases hone : env.vecOne e.1.1 with
      | error er => rw [hone] at h; simp at h
      | ok l =>
        rw [hone] at h
        cases l with
        | nil => simp at h
        | cons p tail =>
          obtain ⟨doc, sc⟩ := p
          simp at h
          subst h
          rfl
  | some pkg =>
    rw [hbm] at h
    dsimp only at h
    cases hc : pkg.chunks.get? e.1.2 with
    | none =>
      cases hm : pkg.metas.get? e.1.2 with
      | none => rw [hc, hm] at h; simp at h
      | some meta => rw [hc, hm] at h; simp at h
    | some text =>
      cases hm : pkg.metas.get? e.1.2 with
      | none => rw [hc, hm] at h; simp at h
      | some meta =>
        rw [hc, hm] at h
        simp at h
        subst h
        rfl

theorem assemble_scores (env : SearchEnv) :
    ∀ (l : FusedMap) (out : List SearchResult),
      assemble env l = .ok out →
      (out.map (fun it => it.score)).Sublist (l.map (fun kv => kv.2)) := by
  intro l
  induction l with
  | nil =>
    intro out h
    have : out = [] := by simpa [assemble, pure, Except.pure] using h.symm
    simp [this]
  | cons e rest ih =>
    intro out h
    rw [assemble] at h
    cases h1 : assembleOne env e with
    | error er => rw [h1] at h; simp [bind, Except.bind] at h
    | ok item =>
      rw [h1] at h
      simp only [bind, Except.bind] at h
      cases h2 : assemble env rest with
      | error er => rw [h2] at h; simp at h
      | ok out' =>
        rw [h2] at h
        cases item with
        | none =>
          have hout : out' = out := by simpa [pure, Except.pure] using h
          subst hout
          exact (ih _ h2).cons _
        | some it =>
          have hout : it :: out' = out := by simpa [pure, Except.pure] using h
          subst hout
          simp only [List.map_cons]
          rw [assembleOne_score env e it h1]
          exact (ih out' h2).cons₂ _

theorem bmContribs_envEx :
    bmContribs envEx "m" 20 (1/4) =
      [(("m", 1), 1000000000/4000000001), (("m", 0), 0)] := by
  norm_num [bmContribs, envEx, minMaxNorm, npMin, npMax, npPtp, EPS, topIdx,
    argsortAsc, argsortAsc.insertAsc, (by decide : List.range 2 = [0, 1])]

theorem vecContribs_envEx :
    vecContribs envEx "m" (3/4) =
      .ok [(("m", 0), 187500000/250000001), (("m", 1), 0)] := by
  norm_num [vecContribs, envEx, minMaxNorm, npMin, npMax, npPtp, EPS, docM0,
    docM1]
  intro h
  simp at h

theorem nsContribs_envEx :
    nsContribs envEx "m" 20 (1/4) (3/4) = .ok LEx := by
  unfold nsContribs
  rw [vecContribs_envEx]
  show Except.ok (bmContribs envEx "m" 20 (1/4) ++ _) = _
  rw [bmContribs_envEx]
  rfl

theorem allContribs_envEx :
    allContribs envEx 20 (1/4) (3/4) ["m"] = .ok LEx := by
  rw [allContribs, allContribs]
  rw [(by decide : firstChar "m" = .ok "m")]
  simp only [bind, Except.bind]
  rw [(by decide : slug "m" = "m"), nsContribs_envEx]
  simp [pure, Except.pure]

/-- Counterexample to claim C4's strictness: in `envEx`, chunk `("m", 1)`
appears in the lexical top-k (normalized score `4/(4+ε)`) **and** in the
vector hits (it is the minimum hit, so its normalized vector score is 0);
its fused score is therefore exactly `w_bm25 * 4/(4+ε)` — equal to, not
strictly greater than, the score the lexical signal alone would give it. -/
theorem C4_counterexample :
    (("m", 1), (1/4 : ℚ) * ((4 - 0) / ((4 - 0) + EPS))) ∈
        bmContribs envEx "m" 20 (1/4) ∧
    vecContribs envEx "m" (3/4) =
      .ok [(("m", 0), (3/4 : ℚ) * ((1/2 - 1/4) / ((1/2 - 1/4) + EPS))),
           (("m", 1), (3/4 : ℚ) * ((1/4 - 1/4) / ((1/2 - 1/4) + EPS)))] ∧
    (3/4 : ℚ) * ((1/4 - 1/4) / ((1/2 - 1/4) + EPS)) = 0 ∧
    fusedMap envEx ["m"] 20 (1/4) (3/4) = .ok (applyContribs [] LEx) ∧
    lookupD (applyContribs [] LEx) ("m", 1) =
      (1/4 : ℚ) * ((4 - 0) / ((4 - 0) + EPS)) := by
  refine ⟨?_, ?_, by norm_num, ?_, ?_⟩
  · rw [bmContribs_envEx]
    have hv : (1/4 : ℚ) * ((4 - 0) / ((4 - 0) + EPS)) =
        1000000000/4000000001 := by norm_num [EPS]
    rw [hv]
    simp
  · rw [vecContribs_envEx]
    norm_num [EPS]
  · rw [fusedMap_eq, allContribs_envEx]
    rfl
  · have hv : (1/4 : ℚ) * ((4 - 0) / ((4 - 0) + EPS)) =
        1000000000/4000000001 := by norm_num [EPS]
    rw [hv]
    norm_num [LEx, applyContribs, upsert, lookupD]

/-- Claim C4, amended — fusion additivity and global merge: a chunk that
receives one lexical contribution `x` and one vector contribution `y` (and
no other) ends with fused score exactly `x + y`, which exceeds either
single-signal score **whenever the other weighted normalized contribution
is positive** (if one normalized score is 0 the fused score merely equals
the other signal's score); the returned list pools the fused entries of
every requested namespace, is sorted descending by fused score, and has at
most `k_final` elements, each carrying a score from the fused pool. -/
theorem C4_fusion_additivity_and_merge :
    (∀ (env : SearchEnv) (courses : List String) (k_bm25 : Nat)
       (w_bm25 w_emb : ℚ) (L : List ((String × Nat) × ℚ))
       (k : String × Nat) (x y : ℚ),
      allContribs env k_bm25 w_bm25 w_emb courses = .ok L →
      L.filter (fun kv => kv.1 = k) = [(k, x), (k, y)] →
      fusedMap env courses k_bm25 w_bm25 w_emb = .ok (applyContribs [] L) ∧
      lookupD (applyContribs [] L) k = x + y ∧
      (0 < y → x < lookupD (applyContribs [] L) k) ∧
      (0 < x → y < lookupD (applyContribs [] L) k)) ∧
    (∀ (env : SearchEnv) (courses : List String) (k_final k_bm25 : Nat)
       (w_bm25 w_emb : ℚ) (out : List SearchResult),
      hybrid_search env courses k_final k_bm25 w_bm25 w_emb = .ok out →
      out.length ≤ k_final ∧
      List.Sorted (fun p q => q ≤ p) (out.map (fun it => it.score)) ∧
      ∀ it ∈ out, ∃ F kv, fusedMap env courses k_bm25 w_bm25 w_emb = .ok F ∧
        kv ∈ F ∧ it.score = kv.2) := by
  constructor
  · intro env courses k_bm25 w_bm25 w_emb L k x y hL hfil
    obtain ⟨hF, hlook⟩ :=
      lookupD_fusedMap env courses k_bm25 w_bm25 w_emb L hL
    have hsum : lookupD (applyContribs [] L) k = x + y := by
      rw [hlook k]
      unfold contribSum
      rw [hfil]
      simp
    refine ⟨hF, hsum, ?_, ?_⟩
    · intro hy; rw [hsum]; linarith
    · intro hx; rw [hsum]; linarith
  · intro env courses k_final k_bm25 w_bm25 w_emb out h
    unfold hybrid_search at h
    cases hf : fusedMap env courses k_bm25 w_bm25 w_emb with
    | error e => rw [hf] at h; simp [bind, Except.bind] at h
    | ok F =>
      rw [hf] at h
      simp only [bind, Except.bind] at h
      by_cases hF : F = []
      · rw [if_pos hF] at h
        have hout : out = [] := by simpa [pure, Except.pure] using h.symm
        subst hout
        simp
      · rw [if_neg hF] at h
        have hsub := assemble_scores env _ out h
        refine ⟨?_, ?_, ?_⟩
        · have h1 := hsub.length_le
          simp only [List.length_map] at h1
          calc out.length ≤ ((sortDescByScore F).take k_final).length := h1
            _ ≤ k_final := by
              rw [List.length_take]
              exact min_le_left _ _
        · have hsorted : List.Sorted (fun a b => b.2 ≤ a.2)
              ((sortDescByScore F).take k_final) :=
            (sorted_sortDesc F).sublist (List.take_sublist _ _)
          have hsorted2 : List.Sorted (fun p q => q ≤ p)
              (((sortDescByScore F).take k_final).map (fun kv => kv.2)) :=
            (List.pairwise_map).mpr hsorted
          exact List.Pairwise.sublist hsub hsorted2
        · intro it hit
          have hmem : it.score ∈
              ((sortDescByScore F).take k_final).map (fun kv => kv.2) :=
            hsub.subset (List.mem_map_of_mem _ hit)
          obtain ⟨kv, hkv, hsc⟩ := List.mem_map.mp hmem
          refine ⟨F, kv, rfl, ?_, hsc.symm⟩
          exact (sortDesc_perm F).subset (List.take_subset _ _ hkv)

/-- Witness for the amended C4 at `envEx`, chunk `("m", 0)`: its lexical
contribution is 0 and its vector contribution positive, and its fused
score is exactly their sum. -/
theorem C4_fusion_additivity_and_merge_witness :
    lookupD (applyContribs [] LEx) ("m", 0) =
      (1/4 : ℚ) * ((0 - 0) / ((4 - 0) + EPS)) +
        (3/4 : ℚ) * ((1/2 - 1/4) / ((1/2 - 1/4) + EPS)) :=
  (C4_fusion_additivity_and_merge.1 envEx ["m"] 20 (1/4) (3/4)
      LEx ("m", 0)
      ((1/4 : ℚ) * ((0 - 0) / ((4 - 0) + EPS)))
      ((3/4 : ℚ) * ((1/2 - 1/4) / ((1/2 - 1/4) + EPS)))
      allContribs_envEx
      (by norm_num [LEx, EPS, List.filter])).2.1

theorem mem_insertAsc (scores : List ℚ) (i : Nat) :
    ∀ (l : List Nat) (a : Nat),
      a ∈ argsortAsc.insertAsc scores i l ↔ a = i ∨ a ∈ l := by
  intro l
  induction l with
  | nil => intro a; simp [argsortAsc.insertAsc]
  | cons j js ih =>
    intro a
    rw [argsortAsc.insertAsc]
    by_cases h : scores.getD i 0 ≤ scores.getD j 0
    · rw [if_pos h]
      simp [List.mem_cons]
    · rw [if_neg h]
      simp only [List.mem_cons, ih]
      tauto

theorem mem_argsortAsc (scores : List ℚ) (j : Nat)
    (h : j ∈ argsortAsc scores) : j < scores.length := by
  have key : ∀ (idxs : List Nat),
      j ∈ idxs.foldr (argsortAsc.insertAsc scores) [] → j ∈ idxs := by
    intro idxs
    induction idxs with
    | nil => intro hj; simp at hj
    | cons i rest ih =>
      intro hj
      rcases (mem_insertAsc scores i _ j).mp hj with rfl | hj
      · exact List.mem_cons_self _ _
      · exact List.mem_cons_of_mem _ (ih hj)
  exact List.mem_range.mp (key _ h)

theorem mem_topIdx (scores : List ℚ) (k j : Nat) (h : j ∈ topIdx scores k) :
    j < scores.length := by
  have h1 : j ∈ (argsortAsc scores).reverse := List.take_subset _ _ h
  exact mem_argsortAsc scores j (List.mem_reverse.mp h1)

theorem getD_map_rat (f : ℚ → ℚ) :
    ∀ (l : List ℚ) (i : Nat), i < l.length →
      (l.map f).getD i 0 = f (l.getD i 0) := by
  intro l
  induction l with
  | nil => intro i h; simp at h
  | cons a l ih =>
    intro i h
    cases i with
    | zero => simp
    | succ i => simpa using ih i (by simpa using h)

/-- Counterexample to claim C5: with raw BM25 scores `[0, 1, 4]` and
`k_lexical = 2`, the code normalizes over **all** scores (min 0, range 4),
giving chunk 1 the weighted normalized score `(1-0)/((4-0)+ε) ≈ 0.25`; the
claimed normalization over the top-k scores only (min 1, range 3) would
give it exactly 0.  `bmContribs_claimed` is the claim's version, and the
two disagree at chunk 1 — also visible in the final fused score. -/
theorem C5_counterexample :
    (bmContribs env5 "m" 2 1).filter (fun kv => kv.1 = ("m", 1)) =
      [(("m", 1), ((1 : ℚ) - 0) / ((4 - 0) + EPS))] ∧
    (bmContribs_claimed [0, 1, 4] "m" 2 1).filter (fun kv => kv.1 = ("m", 1)) =
      [(("m", 1), (0 : ℚ))] ∧
    ((1 : ℚ) - 0) / ((4 - 0) + EPS) ≠ 0 ∧
    fusedMap env5 ["m"] 2 1 (3/4) = .ok (applyContribs [] L5) ∧
    lookupD (applyContribs [] L5) ("m", 1) =
      ((1 : ℚ) - 0) / ((4 - 0) + EPS) := by
  have hbm : bmContribs env5 "m" 2 1 =
      [(("m", 2), 4000000000/4000000001), (("m", 1), 1000000000/4000000001)] := by
    norm_num [bmContribs, env5, minMaxNorm, npMin, npMax, npPtp, EPS, topIdx,
      argsortAsc, argsortAsc.insertAsc, (by decide : List.range 3 = [0, 1, 2])]
  have hv : ((1 : ℚ) - 0) / ((4 - 0) + EPS) = 1000000000/4000000001 := by
    norm_num [EPS]
  have hns : nsContribs env5 "m" 2 1 (3/4) = .ok L5 := by
    have hvec : vecContribs env5 "m" (3/4) = .ok [] := rfl
    unfold nsContribs
    rw [hvec]
    show Except.ok (bmContribs env5 "m" 2 1 ++ []) = _
    rw [hbm]
    rfl
  have hall : allContribs env5 2 1 (3/4) ["m"] = .ok L5 := by
    rw [allContribs, allContribs]
    rw [(by decide : firstChar "m" = .ok "m")]
    simp only [bind, Except.bind]
    rw [(by decide : slug "m" = "m"), hns]
    simp [pure, Except.pure]
  refine ⟨?_, ?_, by norm_num [EPS], ?_, ?_⟩
  · rw [hbm, hv]
    norm_num [List.filter]
  · norm_num [bmContribs_claimed, minMaxNorm, npMin, npMax, npPtp, EPS, topIdx,
      argsortAsc, argsortAsc.insertAsc, (by decide : List.range 3 = [0, 1, 2]),
      List.filter]
  · rw [fusedMap_eq, hall]
    rfl
  · rw [hv]
    norm_num [L5, applyContribs, upsert, lookupD]

/-- Claim C5, amended — lexical score normalization scope: each raw BM25
score is min-max normalized with min and range taken over **all** chunks'
raw scores in the namespace (the full `bm25.get_scores` array), not over
the top-`k_lexical` set; the top `k_lexical` indices are then selected by
that (order-preserving) normalized score, and each selected chunk
contributes `w_bm25 * (raw_i - min) / (range + ε)`; a chunk whose only
contribution is that lexical one has exactly it as its fused score. -/
theorem C5_lexical_normalization :
    (∀ (env : SearchEnv) (cslug : String) (k_bm25 : Nat) (w_bm25 : ℚ)
       (kv : (String × Nat) × ℚ),
      kv ∈ bmContribs env cslug k_bm25 w_bm25 →
      ∃ i, i < (env.bmScores cslug).length ∧
        i ∈ topIdx (minMaxNorm (env.bmScores cslug)) k_bm25 ∧
        kv = ((cslug, i),
          w_bm25 * (((env.bmScores cslug).getD i 0 - npMin (env.bmScores cslug)) /
            (npPtp (env.bmScores cslug) + EPS)))) ∧
    (∀ (env : SearchEnv) (courses : List String) (k_bm25 : Nat)
       (w_bm25 w_emb : ℚ) (L : List ((String × Nat) × ℚ)) (k : String × Nat)
       (x : ℚ),
      allContribs env k_bm25 w_bm25 w_emb courses = .ok L →
      L.filter (fun kv => kv.1 = k) = [(k, x)] →
      fusedMap env courses k_bm25 w_bm25 w_emb = .ok (applyContribs [] L) ∧
      lookupD (applyContribs [] L) k = x) := by
  constructor
  · intro env cslug k_bm25 w_bm25 kv hkv
    unfold bmContribs at hkv
    cases hbm : env.bm cslug with
    | none => rw [hbm] at hkv; simp at hkv
    | some pkg =>
      rw [hbm] at hkv
      dsimp only at hkv
      by_cases hlen : (env.bmScores cslug).length ≠ 0
      · rw [if_pos hlen] at hkv
        obtain ⟨i, hi, hkv⟩ := List.mem_map.mp hkv
        have hilt : i < (env.bmScores cslug).length := by
          have := mem_topIdx _ _ _ hi
          simpa [minMaxNorm] using this
        refine ⟨i, hilt, hi, ?_⟩
        rw [← hkv]
        have := getD_map_rat
          (fun x => (x - npMin (env.bmScores cslug)) /
            (npPtp (env.bmScores cslug) + EPS))
          (env.bmScores cslug) i hilt
        unfold minMaxNorm
        rw [this]
      · rw [if_neg hlen] at hkv
        simp at hkv
  · intro env courses k_bm25 w_bm25 w_emb L k x hL hfil
    obtain ⟨hF, hlook⟩ :=
      lookupD_fusedMap env courses k_bm25 w_bm25 w_emb L hL
    refine ⟨hF, ?_⟩
    rw [hlook k]
    unfold contribSum
    rw [hfil]
    simp

/-- Witness for the amended C5 at `env5`: the chunk-1 entry of the lexical
contributions comes with a top-k index and the full-array normalization
formula. -/
theorem C5_lexical_normalization_witness :
    ∃ i, i < (env5.bmScores "m").length ∧
      i ∈ topIdx (minMaxNorm (env5.bmScores "m")) 2 ∧
      (("m", 1), (1000000000 : ℚ)/4000000001) = (("m", i),
        1 * (((env5.bmScores "m").getD i 0 - npMin (env5.bmScores "m")) /
          (npPtp (env5.bmScores "m") + EPS))) :=
  C5_lexical_normalization.1 env5 "m" 2 1
    (("m", 1), (1000000000 : ℚ)/4000000001)
    (by norm_num [bmContribs, env5, minMaxNorm, npMin, npMax, npPtp, EPS,
      topIdx, argsortAsc, argsortAsc.insertAsc,
      (by decide : List.range 3 = [0, 1, 2])])

theorem firstChar_ok (c : String) (h : c ≠ "") :
    ∃ ch, firstChar c = .ok ch := by
  cases c with
  | mk data =>
    cases data with
    | nil => exact absurd rfl h
    | cons ch rest => exact ⟨String.mk [ch], rfl⟩

/-- Counterexample to claim C9's "vector store failure degrades to
lexical-only": in `envFail` the namespace `"m"` has a loaded BM25 pickle
with non-empty scores, its vector store loads, but the vector **query**
(`similarity_search_with_relevance_scores`, rag_utils.py line 132 — outside
the `try/except` that only guards `get_vector_store_for_course`) raises an
embedding-provider error; the whole `hybrid_search` call then raises that
error instead of returning the lexical results. -/
theorem C9_counterexample :
    (envFail.bm "m").isSome = true ∧
    envFail.bmScores "m" ≠ [] ∧
    envFail.vec "m" = some (.error .embeddingError) ∧
    hybrid_search envFail ["m"] 6 20 (1/4) (3/4) =
      .error .embeddingError := by
  refine ⟨rfl, by decide, rfl, ?_⟩
  have hvc : vecContribs envFail "m" (3/4) = .error .embeddingError := rfl
  have hns : nsContribs envFail "m" 20 (1/4) (3/4) =
      .error .embeddingError := by
    unfold nsContribs
    rw [hvc]
    rfl
  unfold hybrid_search fusedMap
  rw [fusedLoop, (by decide : firstChar "m" = .ok "m")]
  simp only [bind, Except.bind]
  rw [(by decide : slug "m" = "m"), hns]

/-- Claim C9, amended — degradation is graceful only for store-**loading**
failures: a namespace whose BM25 pickle fails to load contributes only
vector entries; one whose vector store fails to **construct** contributes
only lexical entries; but a vector store that loads and then fails at
**query** time raises out of the whole call (the query sits outside the
`try/except`); and querying namespaces with no prior indexing at all (no
pickle anywhere, vector stores absent or created empty with no hits)
yields the empty result list rather than an error. -/
theorem C9_graceful_degradation :
    (∀ (env : SearchEnv) (cslug : String) (k_bm25 : Nat) (w_bm25 w_emb : ℚ),
      env.bm cslug = none →
      nsContribs env cslug k_bm25 w_bm25 w_emb = vecContribs env cslug w_emb) ∧
    (∀ (env : SearchEnv) (cslug : String) (k_bm25 : Nat) (w_bm25 w_emb : ℚ),
      env.vec cslug = none →
      nsContribs env cslug k_bm25 w_bm25 w_emb =
        .ok (bmContribs env cslug k_bm25 w_bm25)) ∧
    (∀ (env : SearchEnv) (ch : Char) (tl : List Char) (rest : List String)
       (k_final k_bm25 : Nat) (w_bm25 w_emb : ℚ) (e : SearchError),
      env.vec (slug (String.mk [ch])) = some (.error e) →
      hybrid_search env (String.mk (ch :: tl) :: rest)
        k_final k_bm25 w_bm25 w_emb = .error e) ∧
    (∀ (env : SearchEnv) (courses : List String) (k_final k_bm25 : Nat)
       (w_bm25 w_emb : ℚ),
      (∀ c ∈ courses, c ≠ "") →
      (∀ cslug, env.bm cslug = none) →
      (∀ cslug, env.vec cslug = none ∨ env.vec cslug = some (.ok [])) →
      hybrid_search env courses k_final k_bm25 w_bm25 w_emb = .ok []) := by
  refine ⟨?_, ?_, ?_, ?_⟩
  · intro env cslug k_bm25 w_bm25 w_emb hbm
    have hb : bmContribs env cslug k_bm25 w_bm25 = [] := by
      unfold bmContribs
      rw [hbm]
    unfold nsContribs
    cases hv : vecContribs env cslug w_emb with
    | error e => simp [Except.map]
    | ok v => simp [Except.map, hb]
  · intro env cslug k_bm25 w_bm25 w_emb hvec
    have hv : vecContribs env cslug w_emb = .ok [] := by
      unfold vecContribs
      rw [hvec]
    unfold nsContribs
    rw [hv]
    simp [Except.map]
  · intro env ch tl rest k_final k_bm25 w_bm25 w_emb e hv
    have hvc : vecContribs env (slug (String.mk [ch])) w_emb = .error e := by
      unfold vecContribs
      rw [hv]
    have hns : nsContribs env (slug (String.mk [ch])) k_bm25 w_bm25 w_emb =
        .error e := by
      unfold nsContribs
      rw [hvc]
      rfl
    have hfc : firstChar (String.mk (ch :: tl)) = .ok (String.mk [ch]) := rfl
    unfold hybrid_search fusedMap
    rw [fusedLoop, hfc]
    simp only [bind, Except.bind]
    rw [hns]
  · intro env courses k_final k_bm25 w_bm25 w_emb hne hbm hvec
    have hall : ∀ cs : List String, (∀ c ∈ cs, c ≠ "") →
        allContribs env k_bm25 w_bm25 w_emb cs = .ok [] := by
      intro cs
      induction cs with
      | nil => intro _; rfl
      | cons c rest ih =>
        intro hne'
        obtain ⟨ch, hch⟩ := firstChar_ok c (hne' c (List.mem_cons_self _ _))
        rw [allContribs, hch]
        simp only [bind, Except.bind]
        have hns : nsContribs env (slug ch) k_bm25 w_bm25 w_emb = .ok [] := by
          have hb : bmContribs env (slug ch) k_bm25 w_bm25 = [] := by
            unfold bmContribs
            rw [hbm (slug ch)]
          have hv : vecContribs env (slug ch) w_emb = .ok [] := by
            unfold vecContribs
            rcases hvec (slug ch) with hv | hv <;> rw [hv] <;> simp
          unfold nsContribs
          rw [hv]
          simp [Except.map, hb]
        rw [hns]
        dsimp only
        rw [ih (fun c hc => hne' c (List.mem_cons_of_mem _ hc))]
        rfl
    have hfm : fusedMap env courses k_bm25 w_bm25 w_emb = .ok [] := by
      rw [fusedMap_eq, hall courses hne]
      rfl
    unfold hybrid_search
    rw [hfm]
    simp [bind, Except.bind, pure, Except.pure]

/-- Witness for the amended C9: searching the never-indexed environment
over course `"m"` returns the empty result list. -/
theorem C9_graceful_degradation_witness :
    hybrid_search envEmpty ["m"] 6 20 (1/4) (3/4) = .ok [] :=
  C9_graceful_degradation.2.2.2 envEmpty ["m"] 6 20 (1/4) (3/4)
    (by decide) (fun _ => rfl) (fun _ => Or.inr rfl)

/-- Claim C10 — implicit first-element truncation of course names: each
element of `courses` is replaced by its own first element
(`course = course[0]`) before the namespace lookup, so a list of full
course-name strings queries exactly the namespaces that the one-character
prefixes would query; an empty-string element makes the call raise
`IndexError` whenever the loop reaches it (in particular, whenever the
courses before it process without an uncaught error — as in the default
`class_selected = [""]`, where it is first); and with an empty string
anywhere in the list the call always raises some error rather than
returning results. -/
theorem C10_course_first_element :
    (∀ (env : SearchEnv) (courses : List String) (k_final k_bm25 : Nat)
       (w_bm25 w_emb : ℚ),
      (∀ c ∈ courses, c ≠ "") →
      hybrid_search env courses k_final k_bm25 w_bm25 w_emb =
        hybrid_search env (courses.map (fun c => String.mk (c.data.take 1)))
          k_final k_bm25 w_bm25 w_emb) ∧
    (∀ (env : SearchEnv) (pre post : List String) (k_final k_bm25 : Nat)
       (w_bm25 w_emb : ℚ) (L : List ((String × Nat) × ℚ)),
      allContribs env k_bm25 w_bm25 w_emb pre = .ok L →
      hybrid_search env (pre ++ "" :: post) k_final k_bm25 w_bm25 w_emb =
        .error .indexError) ∧
    (∀ (env : SearchEnv) (pre post : List String) (k_final k_bm25 : Nat)
       (w_bm25 w_emb : ℚ),
      ∃ e, hybrid_search env (pre ++ "" :: post) k_final k_bm25 w_bm25 w_emb =
        .error e) := by
  refine ⟨?_, ?_, ?_⟩
  · intro env courses k_final k_bm25 w_bm25 w_emb hne
    have key : ∀ (cs : List String), (∀ c ∈ cs, c ≠ "") →
        allContribs env k_bm25 w_bm25 w_emb cs =
          allContribs env k_bm25 w_bm25 w_emb
            (cs.map (fun c => String.mk (c.data.take 1))) := by
      intro cs
      induction cs with
      | nil => intro _; rfl
      | cons c rest ih =>
        intro hne'
        have hc : c ≠ "" := hne' c (List.mem_cons_self _ _)
        obtain ⟨data⟩ := c
        cases data with
        | nil => exact absurd rfl hc
        | cons ch tl =>
          rw [List.map_cons, allContribs, allContribs]
          rw [ih (fun c hc => hne' c (List.mem_cons_of_mem _ hc))]
          rfl
    unfold hybrid_search
    rw [fusedMap_eq, fusedMap_eq, key courses hne]
  · intro env pre post k_final k_bm25 w_bm25 w_emb L hpre
    have key : ∀ (p : List String) (L : List ((String × Nat) × ℚ)),
        allContribs env k_bm25 w_bm25 w_emb p = .ok L →
        allContribs env k_bm25 w_bm25 w_emb (p ++ "" :: post) =
          .error .indexError := by
      intro p
      induction p with
      | nil => intro L _; rfl
      | cons c p ih =>
        intro L hL
        rw [allContribs] at hL
        rw [List.cons_append, allContribs]
        cases hch : firstChar c with
        | error e => rw [hch] at hL; simp [bind, Except.bind] at hL
        | ok ch =>
          rw [hch] at hL
          simp only [bind, Except.bind] at hL ⊢
          cases hns : nsContribs env (slug ch) k_bm25 w_bm25 w_emb with
          | error e => rw [hns] at hL; simp at hL
          | ok ns =>
            rw [hns] at hL
            cases ht : allContribs env k_bm25 w_bm25 w_emb p with
            | error e => rw [ht] at hL; simp at hL
            | ok tail => rw [ih tail ht]
    unfold hybrid_search
    rw [fusedMap_eq, key pre L hpre]
    rfl
  · intro env pre post k_final k_bm25 w_bm25 w_emb
    have key : ∀ (p : List String),
        ∃ e, allContribs env k_bm25 w_bm25 w_emb (p ++ "" :: post) =
          .error e := by
      intro p
      induction p with
      | nil => exact ⟨.indexError, rfl⟩
      | cons c p ih =>
        rw [List.cons_append, allContribs]
        cases hch : firstChar c with
        | error e => exact ⟨e, by simp [bind, Except.bind]⟩
        | ok ch =>
          simp only [bind, Except.bind]
          cases hns : nsContribs env (slug ch) k_bm25 w_bm25 w_emb with
          | error e => exact ⟨e, rfl⟩
          | ok ns =>
            obtain ⟨e, he⟩ := ih
            exact ⟨e, by rw [he]⟩
    obtain ⟨e, he⟩ := key pre
    refine ⟨e, ?_⟩
    unfold hybrid_search
    rw [fusedMap_eq, he]
    rfl

/-- Witness for C10: over `envEmpty`, querying with the full course name
`"math101"` gives the same result as querying with its one-character
truncation; and the default tool call shape — the empty string as the
(first) course — raises `IndexError`. -/
theorem C10_course_first_element_witness :
    hybrid_search envEmpty ["math101"] 6 20 (1/4) (3/4) =
      hybrid_search envEmpty
        (["math101"].map (fun c => String.mk (c.data.take 1))) 6 20 (1/4) (3/4) ∧
    hybrid_search envEmpty ([] ++ "" :: []) 6 20 (1/4) (3/4) =
      .error .indexError :=
  ⟨C10_course_first_element.1 envEmpty ["math101"] 6 20 (1/4) (3/4) (by decide),
   C10_course_first_element.2.1 envEmpty [] [] 6 20 (1/4) (3/4) [] rfl⟩

end AgentV1
